import Mathlib

/-!
# braindead: a Brainfuck-to-Go translator (`compiler.go`)

Shallow embedding of the translation pass of `compiler.go` and proofs about it.

Modelling conventions.

* A Go `string` is ranged over rune by rune (`for _, r := range input`); the
  input is modelled by the sequence of runes that `range` yields, carried as a
  Lean `String` (its `data : List Char`).
* `strings.Builder` is modelled by the `String` written so far; every function
  that takes `sb *strings.Builder` takes the buffer and returns the new one.
* `*compilerState` is modelled by explicit state passing.
* `NumOpenLoops` is a Go `int`.  Under `processFile` its absolute value never
  exceeds the number of runes read, which is below the largest `int`, so
  `tryProcessCommand`, the loop and `processFile` are modelled with exact
  `Int` arithmetic.  `tryProcessCommandWrap` is the same function with the
  wrap-around of an `int` of a given size; it is used where a statement ranges
  over every state, and it agrees with `tryProcessCommand` wherever nothing
  overflows (`tryProcessCommandWrap_eq`).
* `error` is modelled by `Option String` (`none` is `nil`, `some msg` is
  `errors.New(msg)`).
-/

namespace unicode

/-- Go standard library `unicode.IsSpace`: the Latin-1 cases
`'\t', '\n', '\v', '\f', '\r', ' ', U+0085, U+00A0` and, above Latin-1, the
`White_Space` range table. -/
def IsSpace (r : Char) : Bool :=
  let n := r.toNat
  (0x09 ≤ n && n ≤ 0x0D) || n == 0x20 || n == 0x85 || n == 0xA0 || n == 0x1680 ||
    (0x2000 ≤ n && n ≤ 0x200A) || n == 0x2028 || n == 0x2029 || n == 0x202F ||
    n == 0x205F || n == 0x3000

end unicode

/-- The scan state of `compiler.go`. -/
structure compilerState where
  NumOpenLoops : Int
  WritingComment : Bool
  deriving DecidableEq, Repr

/-- Message of the error returned by `tryProcessCommand`. -/
def errLoopClose : String :=
  "invalid syntax, loop close detected with no associated open loop"

/-- Message of the error returned at the end of `processFile`. -/
def errOpenLoop : String :=
  "invalid syntax, open loop detected at end of program parsing"

/-- Source function `isIgnoredRune`. -/
def isIgnoredRune (r : Char) (state : compilerState) : Bool :=
  if !state.WritingComment then
    unicode.IsSpace r
  else
    unicode.IsSpace r && r != ' '

/-- The loop `for i := 0; i < tabIndex; i++ { sb.WriteRune('\t') }` of
`writeCommand`, run for `n` iterations. -/
def writeTabs : Nat → String → String
  | 0, sb => sb
  | n + 1, sb => writeTabs n (sb.push '\t')

/-- Source function `writeCommand`. A non-positive `tabIndex` writes no tab. -/
def writeCommand (sb : String) (tabIndex : Int) (command : String)
    (withNewLine : Bool) : String :=
  let sb := writeTabs tabIndex.toNat sb
  let sb := sb ++ command
  if withNewLine then sb.push '\n' else sb

/-- The `switch r` of `tryProcessCommand`: the statement of an operator, `none`
for the `default` branch. -/
def operatorCommand (r : Char) : Option String :=
  if r = '>' then some "index++"
  else if r = '<' then some "index--"
  else if r = '+' then some "mem[index]++"
  else if r = '-' then some "mem[index]--"
  else if r = '[' then some "for mem[index] != 0 \x7b"
  else if r = ']' then some "\x7d"
  else if r = ',' then some "mem[index] = readChar(reader)"
  else if r = '.' then some "fmt.Printf(\"%c\", mem[index])"
  else none

/-- Source function `tryProcessCommand`. Returns the pair `(bool, error)` of
the source together with the buffer and the state as the call leaves them. -/
def tryProcessCommand (r : Char) (sb : String) (state : compilerState) :
    (Bool × Option String) × String × compilerState :=
  match operatorCommand r with
  | none => ((false, none), sb, state)
  | some command =>
    let sb := if state.WritingComment then sb.push '\n' else sb
    let state :=
      if r = ']' then { state with NumOpenLoops := state.NumOpenLoops - 1 } else state
    if r = ']' ∧ state.NumOpenLoops < 0 then
      ((false, some errLoopClose), sb, state)
    else
      let sb := writeCommand sb (state.NumOpenLoops + 1) command true
      let state :=
        if r = '[' then { state with NumOpenLoops := state.NumOpenLoops + 1 } else state
      ((true, none), sb, state)

/-- Source function `writeComment`. Returns the `bool` of the source and the
buffer; the state is only read. -/
def writeComment (r : Char) (sb : String) (state : compilerState) : Bool × String :=
  let sb :=
    if !state.WritingComment then writeCommand sb (state.NumOpenLoops + 1) "// " false
    else sb
  (true, sb.push r)

/-- Two's-complement wrap-around to `bits` bits: the value that a Go `int` of
that size (64, or 32 on a 32-bit platform) holds after an arithmetic
operation whose exact result is `x`. -/
def wrapInt (bits : Nat) (x : Int) : Int :=
  (x + 2 ^ (bits - 1)) % 2 ^ bits - 2 ^ (bits - 1)

/-- Source function `tryProcessCommand` with the arithmetic of a Go `int` of
`bits` bits: `NumOpenLoops--`, `NumOpenLoops+1` and `NumOpenLoops++` wrap
around. It is `tryProcessCommand` wherever no operation overflows. -/
def tryProcessCommandWrap (bits : Nat) (r : Char) (sb : String) (state : compilerState) :
    (Bool × Option String) × String × compilerState :=
  match operatorCommand r with
  | none => ((false, none), sb, state)
  | some command =>
    let sb := if state.WritingComment then sb.push '\n' else sb
    let state :=
      if r = ']' then { state with NumOpenLoops := wrapInt bits (state.NumOpenLoops - 1) }
      else state
    if r = ']' ∧ state.NumOpenLoops < 0 then
      ((false, some errLoopClose), sb, state)
    else
      let sb := writeCommand sb (wrapInt bits (state.NumOpenLoops + 1)) command true
      let state :=
        if r = '[' then { state with NumOpenLoops := wrapInt bits (state.NumOpenLoops + 1) }
        else state
      ((true, none), sb, state)

/-- The `for _, r := range input` loop of `processFile`, over the runes still
to read. The first component is the error that made the loop return early. -/
def processLoop : List Char → String → compilerState → Option String × String × compilerState
  | [], sb, state => (none, sb, state)
  | r :: rs, sb, state =>
    if isIgnoredRune r state then
      processLoop rs sb state
    else
      match tryProcessCommand r sb state with
      | ((_, some err), sb1, state1) => (some err, sb1, state1)
      | ((true, none), sb1, state1) =>
        processLoop rs sb1 { state1 with WritingComment := false }
      | ((false, none), sb1, state1) =>
        let res := writeComment r sb1 state1
        processLoop rs res.2 { state1 with WritingComment := res.1 }

/-- Source function `processFile`: the returned pair `(string, error)`. -/
def processFile (input : String) : String × Option String :=
  match processLoop input.data "" { NumOpenLoops := 0, WritingComment := false } with
  | (some err, _, _) => ("", some err)
  | (none, sb, state) =>
    let sb := if state.WritingComment then sb.push '\n' else sb
    if state.NumOpenLoops > 0 then
      ("", some errOpenLoop)
    else
      (sb, none)

/-! ## Vocabulary of the specification -/

/-- The eight operator characters. -/
def operators : List Char := ['>', '<', '+', '-', '[', ']', ',', '.']

/-- Whether a rune is one of the eight operators. -/
def isOperator (r : Char) : Bool := decide (r ∈ operators)

/-- The initial state built by `processFile`. -/
def initState : compilerState := { NumOpenLoops := 0, WritingComment := false }

/-- Running balance of a rune sequence: number of `[` minus number of `]`. -/
def balance (l : List Char) : Int := (l.count '[' : Int) - (l.count ']' : Int)

/-- Contribution of one rune to the running balance. -/
def bracketDelta (r : Char) : Int := if r = '[' then 1 else if r = ']' then -1 else 0

/-- A string of `n` tabs (none when `n ≤ 0`). -/
def tabs (n : Int) : String := ⟨List.replicate n.toNat '\t'⟩

/-- Text appended to the buffer by one iteration of the loop of `processFile`
that reads the non-ignored rune `r` in state `st` without failing. -/
def stepText (r : Char) (st : compilerState) : String :=
  match operatorCommand r with
  | some command =>
    (if st.WritingComment then "\n" else "") ++
      tabs ((if r = ']' then st.NumOpenLoops - 1 else st.NumOpenLoops) + 1) ++ command ++ "\n"
  | none =>
    (if st.WritingComment then "" else tabs (st.NumOpenLoops + 1) ++ "// ") ++
      String.singleton r

/-- State after one iteration of the loop of `processFile` that reads the
non-ignored rune `r` in state `st` without failing. -/
def stepState (r : Char) (st : compilerState) : compilerState :=
  match operatorCommand r with
  | some _ =>
    { NumOpenLoops :=
        if r = ']' then st.NumOpenLoops - 1
        else if r = '[' then st.NumOpenLoops + 1 else st.NumOpenLoops,
      WritingComment := false }
  | none => { st with WritingComment := true }

/-- The six operators that are not loop brackets. -/
def nonLoopOperators : List Char := ['>', '<', '+', '-', ',', '.']

/-- The statement of each of the six non-loop operators, as the specification
lists them. -/
def nonLoopStatement (r : Char) : String :=
  if r = '>' then "index++"
  else if r = '<' then "index--"
  else if r = '+' then "mem[index]++"
  else if r = '-' then "mem[index]--"
  else if r = ',' then "mem[index] = readChar(reader)"
  else "fmt.Printf(\"%c\", mem[index])"

/-- Concatenation, in order, of the strings `f r` for the runes `r` of a list. -/
def concatMap (f : Char → String) : List Char → String
  | [] => ""
  | r :: rs => f r ++ concatMap f rs

/-- A rune sequence with every whitespace character deleted. -/
def stripSpace (l : List Char) : List Char := l.filter (fun r => !unicode.IsSpace r)

/-- A rune sequence with every whitespace character other than the plain space
deleted. -/
def stripOtherSpace (l : List Char) : List Char :=
  l.filter (fun r => !unicode.IsSpace r || r == ' ')

/-- The lines of a text: the maximal runs of characters ended by a line break
(a last run without line break, if any, counts as a line). -/
def splitLines : List Char → List (List Char)
  | [] => []
  | c :: cs =>
    if c = '\n' then [] :: splitLines cs
    else
      match splitLines cs with
      | [] => [[c]]
      | l :: ls => (c :: l) :: ls

/-- A comment line: after its leading tabs the line starts with `"// "`. -/
def isCommentLine (l : List Char) : Bool :=
  "// ".data.isPrefixOf (l.dropWhile (fun c => c == '\t'))

/-- The operator lines of a body: its lines that are not comment lines. -/
def operatorLines (body : String) : List (List Char) :=
  (splitLines body.data).filter (fun l => !isCommentLine l)

/-- The depth of the line of the operator of index `k` (from zero) of `ops`:
the running balance of the operators before it, less one when it is `]`. -/
def lineDepth (ops : List Char) (k : Nat) : Int :=
  balance (ops.take k) - (if ops.getD k ' ' = ']' then 1 else 0)

/-- The line expected for the operator of index `k` of `ops`: `1 + lineDepth`
tabs and the statement of the operator. -/
def expectedLine (ops : List Char) (k : Nat) : List Char :=
  List.replicate (1 + lineDepth ops k).toNat '\t' ++
    ((operatorCommand (ops.getD k ' ')).getD "").data

/-- The line of operator `r` read at depth `d`. -/
def lineAt (d : Int) (r : Char) : List Char :=
  List.replicate ((if r = ']' then d - 1 else d) + 1).toNat '\t' ++
    ((operatorCommand r).getD "").data

/-- The lines of a sequence of operators read from depth `d`. -/
def opLinesFrom : Int → List Char → List (List Char)
  | _, [] => []
  | d, r :: ops => lineAt d r :: opLinesFrom (d + bracketDelta r) ops

/-- Every operator of a sequence read from depth `d` is written at a
non-negative depth. -/
def depthsFrom : Int → List Char → Prop
  | _, [] => True
  | d, r :: ops => 0 ≤ d - (if r = ']' then 1 else 0) ∧ depthsFrom (d + bracketDelta r) ops

/-- The buffer as `processFile` completes it after its loop: a line break is
added when a comment is open. -/
def finishBuffer (res : Option String × String × compilerState) : String :=
  if res.2.2.WritingComment then res.2.1.push '\n' else res.2.1

/-- The runes of a sequence on which the test `isIgnoredRune` of the loop of
`processFile`, started in state `st`, is false. -/
def nonIgnoredRunes : List Char → compilerState → List Char
  | [], _ => []
  | r :: rs, st =>
    if isIgnoredRune r st then nonIgnoredRunes rs st
    else r :: nonIgnoredRunes rs (stepState r st)

/-- A loop-open line: after its leading tabs the line is exactly
`for mem[index] != 0 {`. -/
def isLoopOpenLine (l : List Char) : Bool :=
  l.dropWhile (fun c => c == '\t') == "for mem[index] != 0 \x7b".data

/-- The text of `k` loop-open lines, indented by 1, 2, ..., `k` tabs. -/
def loopOpenLines : Nat → List Char
  | 0 => []
  | k + 1 => loopOpenLines k ++ (List.replicate (k + 1) '\t' ++ "for mem[index] != 0 \x7b\n".data)

/-- The text of `k` loop-close lines, indented by `k`, ..., 2, 1 tabs. -/
def loopCloseLines : Nat → List Char
  | 0 => []
  | k + 1 => (List.replicate (k + 1) '\t' ++ "\x7d\n".data) ++ loopCloseLines k

/-- Whether a rune sequence holds a character that is not whitespace. -/
def hasText (seg : List Char) : Bool := seg.any (fun r => !unicode.IsSpace r)

/-- The number of comment runs of an input: the operators cut the input into
segments, and a segment holds a comment run when it holds a character that is
not whitespace (the first such character is not ignored and starts the run,
which lasts until the next operator or the end of the input). -/
def commentRuns (l : List Char) : Nat := (l.splitOnP isOperator).countP hasText

/-- The number of comment lines that the loop of `processFile` opens on a rune
sequence, `wc` telling whether a comment is open at the start. -/
def runsFrom : Bool → List Char → Nat
  | _, [] => 0
  | wc, r :: rs =>
    if isOperator r then runsFrom false rs
    else if unicode.IsSpace r then runsFrom wc rs
    else (if wc then 0 else 1) + runsFrom true rs

/-- A statement line: tabs followed by the statement of one operator. -/
def isStatementLine (l : List Char) : Prop :=
  ∃ n r command, operatorCommand r = some command ∧ l = List.replicate n '\t' ++ command.data

/-- A commentary line: tabs followed by `"// "` and a text whose only
whitespace is the plain space. -/
def isCommentaryLine (l : List Char) : Prop :=
  ∃ n text, l = List.replicate n '\t' ++ ("// ".data ++ text) ∧
    ∀ x ∈ text, unicode.IsSpace x = true → x = ' '

/-- A text with one tab inserted at the start of every line; `atStart` tells
whether the text begins at the start of a line. -/
def indentFrom : Bool → List Char → List Char
  | _, [] => []
  | atStart, c :: cs => (if atStart then ['\t', c] else [c]) ++ indentFrom (c == '\n') cs

/-- A body with one extra tab inserted at the start of every line. -/
def indentLines (body : String) : String := ⟨indentFrom true body.data⟩

/-! ## Basic facts on the embedding -/

theorem writeTabs_eq (n : Nat) (sb : String) :
    writeTabs n sb = sb ++ ⟨List.replicate n '\t'⟩ := by
  induction n generalizing sb with
  | zero => apply String.ext; simp [writeTabs]
  | succ n ih =>
    rw [writeTabs, ih]
    apply String.ext
    simp [List.replicate_succ]

theorem writeCommand_eq (sb : String) (n : Int) (command : String) (nl : Bool) :
    writeCommand sb n command nl =
      sb ++ tabs n ++ command ++ (if nl then "\n" else "") := by
  unfold writeCommand tabs
  rw [writeTabs_eq]
  cases nl <;> apply String.ext <;> simp

theorem operatorCommand_eq_none {r : Char} :
    operatorCommand r = none ↔ isOperator r = false := by
  unfold operatorCommand isOperator operators
  split_ifs <;> simp_all

theorem operatorCommand_isSome {r : Char} :
    (operatorCommand r).isSome = isOperator r := by
  cases h : isOperator r
  · rw [operatorCommand_eq_none.mpr h]; rfl
  · cases h2 : operatorCommand r with
    | none => rw [operatorCommand_eq_none.mp h2] at h; cases h
    | some c => rfl

theorem isOperator_not_space {r : Char} (h : isOperator r = true) :
    unicode.IsSpace r = false := by
  simp only [isOperator, operators, decide_eq_true_eq, List.mem_cons, List.mem_singleton,
    List.mem_nil_iff, or_false] at h
  rcases h with h | h | h | h | h | h | h | h <;> subst h <;> rfl

theorem isOperator_not_ignored {r : Char} (st : compilerState) (h : isOperator r = true) :
    isIgnoredRune r st = false := by
  unfold isIgnoredRune
  simp [isOperator_not_space h]

/-- One iteration of the loop of `processFile`, in closed form. -/
theorem processLoop_cons (r : Char) (rs : List Char) (sb : String) (st : compilerState) :
    processLoop (r :: rs) sb st =
      if isIgnoredRune r st then processLoop rs sb st
      else if r = ']' ∧ st.NumOpenLoops ≤ 0 then
        (some errLoopClose, (if st.WritingComment then sb.push '\n' else sb),
          { st with NumOpenLoops := st.NumOpenLoops - 1 })
      else processLoop rs (sb ++ stepText r st) (stepState r st) := by
  rw [processLoop]
  by_cases hi : isIgnoredRune r st = true
  · simp [hi]
  · simp only [hi, Bool.false_eq_true, if_false]
    cases hc : operatorCommand r with
    | none =>
      have hr : r ≠ ']' := by
        intro h; subst h; exact absurd hc (by decide)
      simp only [tryProcessCommand, hc, writeComment, stepText, stepState, hr, false_and,
        if_false]
      congr 1
      cases hw : st.WritingComment
      · simp only [Bool.not_false, if_true, writeCommand_eq, Bool.false_eq_true, if_false]
        apply String.ext
        simp [String.singleton]
      · simp only [Bool.not_true, Bool.false_eq_true, if_false, if_true]
        apply String.ext
        simp [String.singleton]
    | some command =>
      by_cases hr : r = ']'
      · subst hr
        by_cases hd : st.NumOpenLoops ≤ 0
        · have hd2 : st.NumOpenLoops - 1 < 0 := by omega
          simp [tryProcessCommand, hc, hd, hd2]
        · have hd2 : ¬ st.NumOpenLoops - 1 < 0 := by omega
          simp only [tryProcessCommand, hc, if_true, hd2, and_false, if_false, hd,
            stepText, stepState, writeCommand_eq]
          simp only [show ¬ ((']' : Char) = '[') by decide, if_false]
          congr 1
          cases st.WritingComment <;> apply String.ext <;> simp
      · simp only [tryProcessCommand, hc, hr, if_false, false_and, stepText, stepState,
          writeCommand_eq]
        by_cases hb : r = '['
        · simp only [hb, if_true]
          congr 1
          cases st.WritingComment <;> apply String.ext <;> simp
        · simp only [hb, if_false]
          congr 1
          cases st.WritingComment <;> apply String.ext <;> simp

/-! ## Loop balance -/

theorem balance_nil : balance [] = 0 := rfl

theorem balance_cons (r : Char) (l : List Char) :
    balance (r :: l) = bracketDelta r + balance l := by
  unfold balance bracketDelta
  by_cases h1 : r = '['
  · subst h1
    simp [List.count_cons]
    omega
  · by_cases h2 : r = ']'
    · subst h2
      simp [List.count_cons]
      omega
    · have h1' : ¬ ('[' = r) := fun h => h1 h.symm
      have h2' : ¬ (']' = r) := fun h => h2 h.symm
      simp [List.count_cons, h1, h2, h1', h2']

theorem bracketDelta_of_space {r : Char} (h : unicode.IsSpace r = true) :
    bracketDelta r = 0 := by
  unfold bracketDelta
  have h1 : r ≠ '[' := by intro e; subst e; exact absurd h (by decide)
  have h2 : r ≠ ']' := by intro e; subst e; exact absurd h (by decide)
  simp [h1, h2]

theorem bracketDelta_of_ignored {r : Char} {st : compilerState}
    (h : isIgnoredRune r st = true) : bracketDelta r = 0 := by
  apply bracketDelta_of_space
  unfold isIgnoredRune at h
  split_ifs at h
  · exact h
  · simp only [Bool.and_eq_true] at h
    exact h.1

theorem stepState_depth (r : Char) (st : compilerState) :
    (stepState r st).NumOpenLoops = st.NumOpenLoops + bracketDelta r := by
  unfold stepState bracketDelta
  cases hc : operatorCommand r with
  | none =>
    have h1 : r ≠ '[' := by intro e; subst e; exact absurd hc (by decide)
    have h2 : r ≠ ']' := by intro e; subst e; exact absurd hc (by decide)
    simp [h1, h2]
  | some c =>
    by_cases h2 : r = ']'
    · subst h2
      simp
      omega
    · by_cases h1 : r = '['
      · simp [h1]
      · simp [h1, h2]

/-- The prefixes of `r :: rs` are `[]` and `r :: t` for the prefixes `t` of `rs`. -/
theorem prefix_balance_cons (d : Int) (r : Char) (rs : List Char) :
    (∀ p, p <+: r :: rs → 0 ≤ d + balance p) ↔
      0 ≤ d ∧ ∀ t, t <+: rs → 0 ≤ (d + bracketDelta r) + balance t := by
  constructor
  · intro h
    refine ⟨?_, ?_⟩
    · have := h [] List.nil_prefix
      simpa [balance_nil] using this
    · intro t ht
      have := h (r :: t) ((List.prefix_cons_inj r).mpr ht)
      rw [balance_cons] at this
      omega
  · rintro ⟨h0, h⟩ p hp
    rcases List.prefix_cons_iff.mp hp with rfl | ⟨t, rfl, ht⟩
    · simpa [balance_nil] using h0
    · have := h t ht
      rw [balance_cons]
      omega

/-- The only error the loop of `processFile` returns is the loop-close error. -/
theorem processLoop_error (rs : List Char) (sb : String) (st : compilerState)
    (e : String) (h : (processLoop rs sb st).1 = some e) : e = errLoopClose := by
  induction rs generalizing sb st with
  | nil => simp [processLoop] at h
  | cons r rs ih =>
    rw [processLoop_cons] at h
    by_cases h1 : isIgnoredRune r st = true
    · rw [if_pos h1] at h
      exact ih _ _ h
    · rw [if_neg h1] at h
      by_cases h2 : r = ']' ∧ st.NumOpenLoops ≤ 0
      · rw [if_pos h2] at h
        simpa using h.symm
      · rw [if_neg h2] at h
        exact ih _ _ h

/-- The loop of `processFile`, started at a non-negative depth, runs to the end
exactly when no prefix of the remaining runes drives the depth below zero. -/
theorem processLoop_ok_iff (rs : List Char) (sb : String) (st : compilerState)
    (h0 : 0 ≤ st.NumOpenLoops) :
    (processLoop rs sb st).1 = none ↔
      ∀ p, p <+: rs → 0 ≤ st.NumOpenLoops + balance p := by
  induction rs generalizing sb st with
  | nil =>
    simp only [processLoop, List.prefix_nil, true_iff]
    rintro p rfl
    simpa [balance_nil] using h0
  | cons r rs ih =>
    rw [processLoop_cons, prefix_balance_cons]
    by_cases h1 : isIgnoredRune r st = true
    · rw [if_pos h1, ih sb st h0, bracketDelta_of_ignored h1]
      simp [h0]
    by_cases h2 : r = ']' ∧ st.NumOpenLoops ≤ 0
    · rw [if_neg h1, if_pos h2]
      obtain ⟨rfl, hd⟩ := h2
      simp only [reduceCtorEq, false_iff, not_and, not_forall]
      intro _
      refine ⟨[], List.nil_prefix, ?_⟩
      simp [bracketDelta, balance_nil]
      omega
    · rw [if_neg h1, if_neg h2]
      have hd : 0 ≤ (stepState r st).NumOpenLoops := by
        rw [stepState_depth]
        unfold bracketDelta
        split_ifs with a b
        · omega
        · have : ¬ st.NumOpenLoops ≤ 0 := fun hle => h2 ⟨b, hle⟩
          omega
        · omega
      rw [ih _ _ hd, stepState_depth]
      simp [h0]

/-- When the loop of `processFile` runs to the end, the final depth is the
initial depth plus the balance of the runes read. -/
theorem processLoop_depth (rs : List Char) (sb : String) (st : compilerState)
    (h : (processLoop rs sb st).1 = none) :
    (processLoop rs sb st).2.2.NumOpenLoops = st.NumOpenLoops + balance rs := by
  induction rs generalizing sb st with
  | nil => simp [processLoop, balance_nil]
  | cons r rs ih =>
    rw [processLoop_cons] at h ⊢
    rw [balance_cons]
    by_cases h1 : isIgnoredRune r st = true
    · rw [if_pos h1] at h ⊢
      rw [ih _ _ h, bracketDelta_of_ignored h1]
      omega
    · rw [if_neg h1] at h ⊢
      by_cases h2 : r = ']' ∧ st.NumOpenLoops ≤ 0
      · rw [if_pos h2] at h
        simp at h
      · rw [if_neg h2] at h ⊢
        rw [ih _ _ h, stepState_depth]
        omega

/-- The result of `processFile` in terms of the outcome of its loop. -/
theorem processFile_eq (input : String) :
    processFile input =
      match (processLoop input.data "" initState).1 with
      | some err => ("", some err)
      | none =>
        if (processLoop input.data "" initState).2.2.NumOpenLoops > 0 then
          ("", some errOpenLoop)
        else
          (if (processLoop input.data "" initState).2.2.WritingComment then
              (processLoop input.data "" initState).2.1.push '\n'
            else (processLoop input.data "" initState).2.1, none) := by
  unfold processFile initState
  rcases processLoop input.data "" { NumOpenLoops := 0, WritingComment := false } with
    ⟨e, sb, st⟩
  cases e <;> rfl

/-- The prefix condition of the claims (counts of brackets over `Nat`) is the
prefix condition on the running balance from depth zero. -/
theorem prefix_count_iff (l : List Char) :
    (∀ p, p <+: l → p.count ']' ≤ p.count '[') ↔
      ∀ p, p <+: l → 0 ≤ initState.NumOpenLoops + balance p := by
  simp only [initState, balance, zero_add]
  constructor
  · intro h p hp
    have := h p hp
    omega
  · intro h p hp
    have := h p hp
    omega

theorem processLoop_init_ok_iff (l : List Char) :
    (processLoop l "" initState).1 = none ↔ ∀ p, p <+: l → p.count ']' ≤ p.count '[' := by
  rw [prefix_count_iff]
  exact processLoop_ok_iff l "" initState (le_refl _)

theorem processLoop_init_depth (l : List Char)
    (h : (processLoop l "" initState).1 = none) :
    (processLoop l "" initState).2.2.NumOpenLoops = (l.count '[' : Int) - (l.count ']' : Int) := by
  rw [processLoop_depth l "" initState h]
  show (0 : Int) + balance l = _
  rw [zero_add]
  rfl

theorem errLoopClose_ne_errOpenLoop : errLoopClose ≠ errOpenLoop := by decide

/-! ## Runs of operators, whitespace and commentary -/

theorem nonLoop_command {r : Char} (h : r ∈ nonLoopOperators) :
    operatorCommand r = some (nonLoopStatement r) ∧ r ≠ '[' ∧ r ≠ ']' := by
  simp only [nonLoopOperators, List.mem_cons, List.mem_singleton, List.mem_nil_iff,
    or_false] at h
  rcases h with h | h | h | h | h | h <;> subst h <;> decide

theorem nonLoop_isOperator {r : Char} (h : r ∈ nonLoopOperators) : isOperator r = true := by
  rw [← operatorCommand_isSome, (nonLoop_command h).1]
  rfl

/-- A run of non-loop operators read outside a comment: one line per operator
at the current depth, the state is unchanged. -/
theorem processLoop_nonLoop (rs : List Char) (sb : String) (st : compilerState)
    (hw : st.WritingComment = false) (h : ∀ r ∈ rs, r ∈ nonLoopOperators) :
    processLoop rs sb st =
      (none,
        sb ++ concatMap (fun r => tabs (st.NumOpenLoops + 1) ++ nonLoopStatement r ++ "\n") rs,
        st) := by
  induction rs generalizing sb with
  | nil =>
    rw [processLoop, concatMap]
    congr 2
    apply String.ext
    simp
  | cons r rs ih =>
    have hr := h r (List.mem_cons_self _ _)
    obtain ⟨hc, h1, h2⟩ := nonLoop_command hr
    have hst : stepState r st = st := by
      cases st
      simp only [stepState, hc, h1, h2, if_false] at hw ⊢
      rw [hw]
    have htx : stepText r st = tabs (st.NumOpenLoops + 1) ++ nonLoopStatement r ++ "\n" := by
      simp only [stepText, hc, hw, h2, if_false, Bool.false_eq_true]
      apply String.ext
      simp
    rw [processLoop_cons, if_neg (by simp [isOperator_not_ignored st (nonLoop_isOperator hr)]),
      if_neg (fun hh => h2 hh.1), hst, htx,
      ih _ (fun x hx => h x (List.mem_cons_of_mem _ hx)), concatMap]
    congr 2
    apply String.ext
    simp

/-- Outside a comment, whitespace between operators is skipped. -/
theorem processLoop_stripSpace (rs : List Char) (sb : String) (st : compilerState)
    (hw : st.WritingComment = false)
    (h : ∀ r ∈ rs, isOperator r = true ∨ unicode.IsSpace r = true) :
    processLoop rs sb st = processLoop (stripSpace rs) sb st := by
  induction rs generalizing sb st with
  | nil => rfl
  | cons r rs ih =>
    have hrs : ∀ x ∈ rs, isOperator x = true ∨ unicode.IsSpace x = true :=
      fun x hx => h x (List.mem_cons_of_mem _ hx)
    by_cases hsp : unicode.IsSpace r = true
    · have hig : isIgnoredRune r st = true := by simp [isIgnoredRune, hw, hsp]
      rw [processLoop_cons, if_pos hig, ih sb st hw hrs]
      simp [stripSpace, List.filter_cons, hsp]
    · have hop : isOperator r = true := (h r (List.mem_cons_self _ _)).resolve_right hsp
      have hkeep : stripSpace (r :: rs) = r :: stripSpace rs := by
        simp [stripSpace, List.filter_cons, hsp]
      have hw2 : (stepState r st).WritingComment = false := by
        cases hc : operatorCommand r with
        | none => rw [operatorCommand_eq_none.mp hc] at hop; cases hop
        | some c => simp [stepState, hc]
      have hig : ¬ isIgnoredRune r st = true := by simp [isOperator_not_ignored st hop]
      rw [hkeep, processLoop_cons, processLoop_cons r (stripSpace rs), if_neg hig,
        if_neg hig, ih _ _ hw2 hrs]

theorem step_comment {r : Char} (h : isOperator r = false) (st : compilerState) :
    stepText r st =
        (if st.WritingComment then "" else tabs (st.NumOpenLoops + 1) ++ "// ") ++
          String.singleton r ∧
      stepState r st = { st with WritingComment := true } := by
  have hc := operatorCommand_eq_none.mpr h
  simp [stepText, stepState, hc]

theorem not_close_of_not_operator {r : Char} (h : isOperator r = false) : r ≠ ']' := by
  intro e
  subst e
  exact absurd h (by decide)

/-- Inside a comment, a run of non-operator runes is appended to the open
comment line, without its whitespace other than the plain space. -/
theorem processLoop_comment_run (rs tail : List Char) (sb : String) (st : compilerState)
    (hw : st.WritingComment = true) (h : ∀ r ∈ rs, isOperator r = false) :
    processLoop (rs ++ tail) sb st = processLoop tail (sb ++ ⟨stripOtherSpace rs⟩) st := by
  induction rs generalizing sb with
  | nil =>
    have : sb ++ ⟨stripOtherSpace []⟩ = sb := by
      apply String.ext
      simp [stripOtherSpace]
    rw [this]
    rfl
  | cons r rs ih =>
    have hr := h r (List.mem_cons_self _ _)
    have hrs : ∀ x ∈ rs, isOperator x = false := fun x hx => h x (List.mem_cons_of_mem _ hx)
    rw [List.cons_append, processLoop_cons]
    by_cases hig : isIgnoredRune r st = true
    · rw [if_pos hig, ih sb hrs]
      have hdrop : stripOtherSpace (r :: rs) = stripOtherSpace rs := by
        simp only [isIgnoredRune, hw, Bool.not_true, Bool.false_eq_true, if_false,
          Bool.and_eq_true, bne_iff_ne, ne_eq] at hig
        simp [stripOtherSpace, List.filter_cons, hig.1, hig.2]
      rw [hdrop]
    · have hkeep : stripOtherSpace (r :: rs) = r :: stripOtherSpace rs := by
        simp only [isIgnoredRune, hw, Bool.not_true, Bool.false_eq_true, if_false,
          Bool.and_eq_true, bne_iff_ne, ne_eq, not_and, not_not] at hig
        have : (!unicode.IsSpace r || r == ' ') = true := by
          cases hsp : unicode.IsSpace r
          · rfl
          · simp [hig hsp]
        simp [stripOtherSpace, List.filter_cons, this]
      have hst : stepState r st = st := by
        rw [(step_comment hr st).2]
        cases st
        simp only at hw
        rw [hw]
      rw [if_neg hig, if_neg (fun hh => not_close_of_not_operator hr hh.1),
        (step_comment hr st).1, hst, ih _ hrs, hkeep]
      congr 1
      apply String.ext
      simp [hw, String.singleton]

/-- Outside a comment, leading whitespace is skipped. -/
theorem processLoop_dropWhile_space (rs : List Char) (sb : String) (st : compilerState)
    (hw : st.WritingComment = false) :
    processLoop rs sb st = processLoop (rs.dropWhile unicode.IsSpace) sb st := by
  induction rs with
  | nil => rfl
  | cons r rs ih =>
    by_cases hsp : unicode.IsSpace r = true
    · have hig : isIgnoredRune r st = true := by simp [isIgnoredRune, hw, hsp]
      rw [processLoop_cons, if_pos hig, ih, List.dropWhile_cons_of_pos hsp]
    · rw [List.dropWhile_cons_of_neg hsp]

/-- A non-operator, non-whitespace rune read outside a comment at depth zero,
followed by non-operator runes and then by `tail`: the comment line is opened
and filled, and the loop goes on with `tail` inside the comment. -/
theorem processLoop_open_comment (r : Char) (rest tail : List Char) (sb : String)
    (hr : isOperator r = false) (hsp : unicode.IsSpace r = false)
    (h : ∀ x ∈ rest, isOperator x = false) :
    processLoop (r :: (rest ++ tail)) sb initState =
      processLoop tail (sb ++ "\t// " ++ ⟨stripOtherSpace (r :: rest)⟩)
        { NumOpenLoops := 0, WritingComment := true } := by
  have hig : ¬ isIgnoredRune r initState = true := by
    simp [isIgnoredRune, initState, hsp]
  have hkeep : stripOtherSpace (r :: rest) = r :: stripOtherSpace rest := by
    simp [stripOtherSpace, List.filter_cons, hsp]
  rw [processLoop_cons, if_neg hig, if_neg (fun hh => not_close_of_not_operator hr hh.1),
    (step_comment hr initState).1, (step_comment hr initState).2]
  show processLoop (rest ++ tail) _ { NumOpenLoops := 0, WritingComment := true } = _
  rw [processLoop_comment_run rest tail _ _ rfl h, hkeep]
  congr 1
  apply String.ext
  simp only [initState, Bool.false_eq_true, if_false, String.data_append, String.singleton,
    List.append_assoc]
  rfl

/-! ## The lines of the body -/

theorem splitLines_line (l rest : List Char) (h : '\n' ∉ l) :
    splitLines (l ++ '\n' :: rest) = l :: splitLines rest := by
  induction l with
  | nil => simp [splitLines]
  | cons c l ih =>
    have hc : c ≠ '\n' := fun e => h (by simp [e])
    have hl : '\n' ∉ l := fun hm => h (List.mem_cons_of_mem _ hm)
    rw [List.cons_append, splitLines, if_neg hc, ih hl]

theorem dropWhile_tabs (n : Nat) (l : List Char) :
    (List.replicate n '\t' ++ l).dropWhile (fun c => c == '\t') =
      l.dropWhile (fun c => c == '\t') := by
  induction n with
  | zero => rfl
  | succ n ih =>
    rw [List.replicate_succ, List.cons_append, List.dropWhile_cons_of_pos (by simp), ih]

theorem newline_not_mem_tabs (n : Nat) : '\n' ∉ List.replicate n '\t' := by
  intro h
  have := (List.mem_replicate.mp h).2
  exact absurd this (by decide)

theorem command_line (r : Char) (command : String) (n : Nat)
    (h : operatorCommand r = some command) :
    '\n' ∉ List.replicate n '\t' ++ command.data ∧
      isCommentLine (List.replicate n '\t' ++ command.data) = false := by
  have key : '\n' ∉ command.data ∧
      "// ".data.isPrefixOf (command.data.dropWhile (fun c => c == '\t')) = false := by
    unfold operatorCommand at h
    split_ifs at h <;> cases h <;> decide
  refine ⟨?_, ?_⟩
  · intro hm
    rcases List.mem_append.mp hm with hm | hm
    · exact newline_not_mem_tabs n hm
    · exact key.1 hm
  · rw [isCommentLine, dropWhile_tabs]
    exact key.2

theorem comment_line (n : Nat) (l : List Char) :
    isCommentLine (List.replicate n '\t' ++ ("// ".data ++ l)) = true := by
  rw [isCommentLine, dropWhile_tabs]
  have : ("// ".data ++ l).dropWhile (fun c => c == '\t') = "// ".data ++ l := rfl
  rw [this, List.isPrefixOf_iff_prefix]
  exact List.prefix_append _ _

theorem not_ignored_ne_newline {r : Char} {st : compilerState}
    (h : ¬ isIgnoredRune r st = true) : r ≠ '\n' := by
  intro e
  subst e
  apply h
  cases st with
  | mk d w => cases w <;> rfl

theorem ignored_not_operator {r : Char} {st : compilerState}
    (h : isIgnoredRune r st = true) : isOperator r = false := by
  cases ho : isOperator r
  · rfl
  · rw [isOperator_not_ignored st ho] at h
    cases h

theorem stepState_nonneg {r : Char} {st : compilerState} (h0 : 0 ≤ st.NumOpenLoops)
    (h2 : ¬ (r = ']' ∧ st.NumOpenLoops ≤ 0)) : 0 ≤ (stepState r st).NumOpenLoops := by
  rw [stepState_depth]
  unfold bracketDelta
  split_ifs with a b
  · omega
  · have : ¬ st.NumOpenLoops ≤ 0 := fun hle => h2 ⟨b, hle⟩
    omega
  · omega

/-- The text written by the loop of `processFile` from a state at non-negative
depth, completed as `processFile` does: the end `c` of the comment line that
was open (if any), then text `rest` whose operator lines are the lines of the
operators read, each at a non-negative depth. -/
theorem processLoop_lines (rs : List Char) (sb : String) (st : compilerState)
    (h0 : 0 ≤ st.NumOpenLoops) (h : (processLoop rs sb st).1 = none) :
    ∃ c rest,
      (finishBuffer (processLoop rs sb st)).data =
          sb.data ++ (if st.WritingComment then c ++ ['\n'] else []) ++ rest ∧
        '\n' ∉ c ∧
        (splitLines rest).filter (fun l => !isCommentLine l) =
          opLinesFrom st.NumOpenLoops (rs.filter isOperator) ∧
        depthsFrom st.NumOpenLoops (rs.filter isOperator) := by
  induction rs generalizing sb st with
  | nil =>
    refine ⟨[], [], ?_, by simp, rfl, trivial⟩
    simp only [processLoop, finishBuffer]
    cases st.WritingComment <;> simp
  | cons r rs ih =>
    rw [processLoop_cons] at h ⊢
    by_cases h1 : isIgnoredRune r st = true
    · rw [if_pos h1] at h ⊢
      have hno : isOperator r = false := ignored_not_operator h1
      rw [List.filter_cons_of_neg (by simp [hno])]
      exact ih sb st h0 h
    · rw [if_neg h1] at h ⊢
      by_cases h2 : r = ']' ∧ st.NumOpenLoops ≤ 0
      · rw [if_pos h2] at h
        simp at h
      · rw [if_neg h2] at h ⊢
        obtain ⟨c', rest', hdata, hc', hlines, hdepths⟩ :=
          ih _ _ (stepState_nonneg h0 h2) h
        rw [hdata]
        have hd := stepState_depth r st
        cases hc : operatorCommand r with
        | some command =>
          have hop : isOperator r = true := by
            rw [← operatorCommand_isSome, hc]
            rfl
          have hw : (stepState r st).WritingComment = false := by simp [stepState, hc]
          obtain ⟨hnl, hncl⟩ := command_line r command
            ((if r = ']' then st.NumOpenLoops - 1 else st.NumOpenLoops) + 1).toNat hc
          refine ⟨[], (List.replicate
            ((if r = ']' then st.NumOpenLoops - 1 else st.NumOpenLoops) + 1).toNat '\t' ++
              command.data) ++ '\n' :: rest', ?_, by simp, ?_, ?_⟩
          · simp only [hw, stepText, hc, tabs]
            cases st.WritingComment <;> simp
          · rw [List.filter_cons_of_pos hop, opLinesFrom, splitLines_line _ _ hnl,
              List.filter_cons_of_pos (by simp [hncl]), hlines, hd]
            simp [lineAt, hc]
          · rw [List.filter_cons_of_pos hop, depthsFrom, ← hd]
            refine ⟨?_, hdepths⟩
            split_ifs with e
            · have : ¬ st.NumOpenLoops ≤ 0 := fun hle => h2 ⟨e, hle⟩
              omega
            · omega
        | none =>
          have hop : isOperator r = false := operatorCommand_eq_none.mp hc
          obtain ⟨htx, hst⟩ := step_comment hop st
          have hrn := not_ignored_ne_newline h1
          have hw : (stepState r st).WritingComment = true := by rw [hst]
          have hd2 : (stepState r st).NumOpenLoops = st.NumOpenLoops := by rw [hst]
          rw [hd2] at hlines hdepths
          rw [List.filter_cons_of_neg (by simp [hop])]
          cases hwc : st.WritingComment
          · have hline : '\n' ∉ List.replicate (st.NumOpenLoops + 1).toNat '\t' ++
                ("// ".data ++ r :: c') := by
              intro hm
              rcases List.mem_append.mp hm with hm | hm
              · exact newline_not_mem_tabs _ hm
              · rcases List.mem_append.mp hm with hm | hm
                · exact absurd hm (by decide)
                · rcases List.mem_cons.mp hm with hm | hm
                  · exact hrn hm.symm
                  · exact hc' hm
            refine ⟨[], (List.replicate (st.NumOpenLoops + 1).toNat '\t' ++
              ("// ".data ++ r :: c')) ++ '\n' :: rest', ?_, by simp, ?_, hdepths⟩
            · simp [hw, htx, hwc, tabs, String.singleton]
            · rw [splitLines_line _ _ hline,
                List.filter_cons_of_neg (by
                  show ¬ (!isCommentLine _) = true
                  rw [comment_line]
                  decide), hlines]
          · refine ⟨r :: c', rest', ?_, ?_, hlines, hdepths⟩
            · simp [hw, htx, hwc, String.singleton]
            · intro hm
              rcases List.mem_cons.mp hm with hm | hm
              · exact hrn hm.symm
              · exact hc' hm

theorem balance_append (a b : List Char) : balance (a ++ b) = balance a + balance b := by
  induction a with
  | nil => simp [balance_nil]
  | cons r a ih =>
    rw [List.cons_append, balance_cons, balance_cons, ih]
    omega

theorem lineDepth_cons_zero (r : Char) (ops : List Char) :
    lineDepth (r :: ops) 0 = -(if r = ']' then 1 else 0) := by
  simp only [lineDepth, List.take_zero, balance_nil, List.getD_cons_zero]
  omega

theorem lineDepth_cons_succ (r : Char) (ops : List Char) (k : Nat) :
    lineDepth (r :: ops) (k + 1) = bracketDelta r + lineDepth ops k := by
  simp only [lineDepth, List.take_succ_cons, balance_cons, List.getD_cons_succ]
  omega

theorem opLinesFrom_eq (d : Int) (ops : List Char) :
    opLinesFrom d ops =
      (List.range ops.length).map (fun k =>
        List.replicate (1 + (d + lineDepth ops k)).toNat '\t' ++
          ((operatorCommand (ops.getD k ' ')).getD "").data) := by
  induction ops generalizing d with
  | nil => rfl
  | cons r ops ih =>
    rw [opLinesFrom, ih, List.length_cons, List.range_succ_eq_map, List.map_cons,
      List.map_map]
    congr 1
    · rw [lineDepth_cons_zero, lineAt, List.getD_cons_zero]
      congr 2
      split_ifs <;> omega
    · apply List.map_congr_left
      intro k _
      simp only [Function.comp, Nat.succ_eq_add_one, lineDepth_cons_succ, List.getD_cons_succ]
      congr 3
      omega

theorem depthsFrom_nonneg (d : Int) (ops : List Char) (h : depthsFrom d ops) :
    ∀ k, k < ops.length → 0 ≤ d + lineDepth ops k := by
  induction ops generalizing d with
  | nil => intro k hk; simp at hk
  | cons r ops ih =>
    obtain ⟨h1, h2⟩ := h
    intro k hk
    cases k with
    | zero =>
      rw [lineDepth_cons_zero]
      omega
    | succ k =>
      rw [lineDepth_cons_succ]
      have := ih _ h2 k (by simpa using hk)
      omega

/-- A `]` whose segment from a `[` up to itself is balanced is written at the
depth of that `[`. -/
theorem lineDepth_matching (ops : List Char) (i j : Nat) (hij : i ≤ j)
    (hi : ops.getD i ' ' = '[') (hj : ops.getD j ' ' = ']')
    (hb : balance ((ops.take (j + 1)).drop i) = 0) :
    lineDepth ops i = lineDepth ops j := by
  have hsplit : ops.take (j + 1) = ops.take i ++ (ops.take (j + 1)).drop i := by
    have := List.take_append_drop i (ops.take (j + 1))
    rw [List.take_take, Nat.min_eq_left (by omega)] at this
    exact this.symm
  have hj2 : ops[j]? = some ']' := by
    rw [List.getD_eq_getElem?_getD] at hj
    cases hq : ops[j]? with
    | none => rw [hq] at hj; exact absurd hj (by decide)
    | some x => rw [hq] at hj; simpa using hj
  have hsucc : balance (ops.take (j + 1)) = balance (ops.take j) - 1 := by
    rw [List.take_succ, hj2, balance_append]
    simp [balance]
    omega
  have h1 := congrArg balance hsplit
  rw [balance_append, hb, hsucc] at h1
  simp only [lineDepth, hi, hj, if_true, show ¬ (('[' : Char) = ']') by decide, if_false]
  omega

theorem processFile_ok (input : String) (h : (processFile input).2 = none) :
    (processLoop input.data "" initState).1 = none ∧
      (processFile input).1 = finishBuffer (processLoop input.data "" initState) := by
  rw [processFile_eq] at h ⊢
  cases he : (processLoop input.data "" initState).1 with
  | some e => rw [he] at h; simp at h
  | none =>
    rw [he] at h
    simp only at h ⊢
    by_cases hpos : (processLoop input.data "" initState).2.2.NumOpenLoops > 0
    · rw [if_pos hpos] at h
      simp at h
    · rw [if_neg hpos]
      exact ⟨trivial, rfl⟩

/-! ## Properties of `processFile` -/

/-- C1: for every input, `processFile` returns a body with no error if and
only if the brackets are balanced: every prefix of the input has at least as
many `[` as `]`, and the whole input has as many `[` as `]`. -/
theorem processFile_ok_iff_balanced (input : String) :
    (processFile input).2 = none ↔
      (∀ p, p <+: input.data → p.count ']' ≤ p.count '[') ∧
        input.data.count '[' = input.data.count ']' := by
  rw [processFile_eq, ← processLoop_init_ok_iff]
  cases h : (processLoop input.data "" initState).1 with
  | some e => simp
  | none =>
    have hd := processLoop_init_depth input.data h
    have hp := (processLoop_init_ok_iff input.data).mp h input.data (List.prefix_refl _)
    simp only [true_and]
    by_cases hpos : (processLoop input.data "" initState).2.2.NumOpenLoops > 0
    · rw [if_pos hpos]
      simp only [reduceCtorEq, false_iff]
      omega
    · rw [if_neg hpos]
      simp only [true_iff]
      omega

/-- C2: an input with some prefix holding more `]` than `[` fails with the
loop-close error and an empty body, whatever follows that prefix. -/
theorem processFile_unmatched_close (input : String)
    (h : ∃ p, p <+: input.data ∧ p.count '[' < p.count ']') :
    processFile input = ("", some errLoopClose) := by
  obtain ⟨p, hp, hlt⟩ := h
  rw [processFile_eq]
  cases he : (processLoop input.data "" initState).1 with
  | some e => rw [processLoop_error _ _ _ e he]
  | none =>
    have := (processLoop_init_ok_iff input.data).mp he p hp
    omega

/-- C2 at the input `]`: the loop-close error, which is not the open-loop error. -/
theorem processFile_unmatched_close_witness :
    (∃ p, p <+: "]".data ∧ p.count '[' < p.count ']') ∧
      processFile "]" = ("", some errLoopClose) ∧
      (processFile "]").2 ≠ some errOpenLoop :=
  ⟨⟨[']'], ⟨[], rfl⟩, by decide⟩,
    processFile_unmatched_close "]" ⟨[']'], ⟨[], rfl⟩, by decide⟩, by decide⟩

/-- C3 as stated fails: `][[` has more `[` than `]` overall, and `processFile`
returns the loop-close error, not the open-loop error. -/
theorem more_opens_not_always_open_error :
    "][[".data.count ']' < "][[".data.count '[' ∧
      processFile "][[" = ("", some errLoopClose) ∧
      (processFile "][[").2 ≠ some errOpenLoop := by
  decide

/-- C3 (amended): an input with more `[` than `]` overall, in which no prefix
holds more `]` than `[`, fails with the open-loop error and an empty body. -/
theorem processFile_unclosed_loop (input : String)
    (hp : ∀ p, p <+: input.data → p.count ']' ≤ p.count '[')
    (h : input.data.count ']' < input.data.count '[') :
    processFile input = ("", some errOpenLoop) := by
  have he := (processLoop_init_ok_iff input.data).mpr hp
  have hd := processLoop_init_depth input.data he
  rw [processFile_eq, he]
  simp only
  rw [if_pos (by omega)]

/-- C3 (amended) at the input `[`. -/
theorem processFile_unclosed_loop_witness :
    (∀ p, p <+: "[".data → p.count ']' ≤ p.count '[') ∧
      "[".data.count ']' < "[".data.count '[' ∧
      processFile "[" = ("", some errOpenLoop) :=
  have hp : ∀ p, p <+: "[".data → p.count ']' ≤ p.count '[' := fun p h =>
    (by decide : ∀ q ∈ "[".data.inits, q.count ']' ≤ q.count '[') p ((List.mem_inits _ _).mpr h)
  ⟨hp, by decide, processFile_unclosed_loop "[" hp (by decide)⟩

/-- C4: when no prefix of the input holds more `]` than `[`, `processFile`
fails with the open-loop error if and only if the numbers of `[` and `]`
differ; on such an input the loop ends without error at a depth that is
positive exactly when it is non-zero. -/
theorem processFile_open_error_iff (input : String)
    (hp : ∀ p, p <+: input.data → p.count ']' ≤ p.count '[') :
    ((processFile input).2 = some errOpenLoop ↔
        input.data.count '[' ≠ input.data.count ']') ∧
      (processLoop input.data "" initState).1 = none ∧
      ((processLoop input.data "" initState).2.2.NumOpenLoops > 0 ↔
        (processLoop input.data "" initState).2.2.NumOpenLoops ≠ 0) := by
  have he := (processLoop_init_ok_iff input.data).mpr hp
  have hd := processLoop_init_depth input.data he
  have hle := hp input.data (List.prefix_refl _)
  refine ⟨?_, he, ?_⟩
  · rw [processFile_eq, he]
    simp only
    by_cases hpos : (processLoop input.data "" initState).2.2.NumOpenLoops > 0
    · rw [if_pos hpos]
      simp only [true_iff]
      omega
    · rw [if_neg hpos]
      simp only [reduceCtorEq, false_iff]
      omega
  · omega

/-- C4 at the input `[[]`. -/
theorem processFile_open_error_iff_witness :
    (∀ p, p <+: "[[]".data → p.count ']' ≤ p.count '[') ∧
      (((processFile "[[]").2 = some errOpenLoop ↔
          "[[]".data.count '[' ≠ "[[]".data.count ']') ∧
        (processLoop "[[]".data "" initState).1 = none ∧
        ((processLoop "[[]".data "" initState).2.2.NumOpenLoops > 0 ↔
          (processLoop "[[]".data "" initState).2.2.NumOpenLoops ≠ 0)) :=
  have hp : ∀ p, p <+: "[[]".data → p.count ']' ≤ p.count '[' := fun p h =>
    (by decide : ∀ q ∈ "[[]".data.inits, q.count ']' ≤ q.count '[') p
      ((List.mem_inits _ _).mpr h)
  ⟨hp, processFile_open_error_iff "[[]" hp⟩

/-- C5: whenever `processFile` returns an error, the returned body is the
empty string. -/
theorem processFile_error_body_empty (input : String)
    (h : (processFile input).2 ≠ none) : (processFile input).1 = "" := by
  rw [processFile_eq] at h ⊢
  cases he : (processLoop input.data "" initState).1 with
  | some e => rfl
  | none =>
    rw [he] at h
    simp only at h ⊢
    by_cases hpos : (processLoop input.data "" initState).2.2.NumOpenLoops > 0
    · rw [if_pos hpos]
    · rw [if_neg hpos] at h
      exact absurd rfl h

/-- C5 at `+a]` (loop-close error after text was generated) and at `+[a`
(open-loop error after text was generated). -/
theorem processFile_error_body_empty_witness :
    ((processFile "+a]").2 ≠ none ∧ (processFile "+a]").1 = "") ∧
      ((processFile "+[a").2 ≠ none ∧ (processFile "+[a").1 = "") :=
  ⟨⟨by decide, processFile_error_body_empty "+a]" (by decide)⟩,
    ⟨by decide, processFile_error_body_empty "+[a" (by decide)⟩⟩

/-- C7: on an input made only of the six non-loop operators, `processFile`
succeeds, and the body is, in input order, one line per character: one tab, the
statement of the operator, a line break. -/
theorem processFile_nonLoop (input : String) (h : ∀ r ∈ input.data, r ∈ nonLoopOperators) :
    processFile input =
      (concatMap (fun r => "\t" ++ nonLoopStatement r ++ "\n") input.data, none) := by
  rw [processFile_eq, processLoop_nonLoop input.data "" initState rfl h]
  simp only [initState, gt_iff_lt, lt_self_iff_false, if_false, Bool.false_eq_true]
  congr 1

/-- C7 at `+`, and at `++>.,<-` where repeated operators are not collapsed. -/
theorem processFile_nonLoop_witness :
    processFile "+" = ("\tmem[index]++\n", none) ∧
      (∀ r ∈ "++>.,<-".data, r ∈ nonLoopOperators) ∧
      processFile "++>.,<-" =
        ("\tmem[index]++\n\tmem[index]++\n\tindex++\n\tfmt.Printf(\"%c\", mem[index])\n" ++
          "\tmem[index] = readChar(reader)\n\tindex--\n\tmem[index]--\n", none) :=
  ⟨processFile_nonLoop "+" (by decide), by decide, processFile_nonLoop "++>.,<-" (by decide)⟩

/-- C8: on an input made only of operators and whitespace, `processFile`
returns the same result (body or error) as on the input with all whitespace
deleted. -/
theorem processFile_whitespace_insignificant (input : String)
    (h : ∀ r ∈ input.data, isOperator r = true ∨ unicode.IsSpace r = true) :
    processFile input = processFile ⟨stripSpace input.data⟩ := by
  rw [processFile_eq, processFile_eq, processLoop_stripSpace input.data "" initState rfl h]

/-- C8 at an input with spaces, tabs, newlines, a no-break space and an
ideographic space between the operators, and at an input that fails. -/
theorem processFile_whitespace_insignificant_witness :
    (∀ r ∈ " [ -\t]\n\n+\u00a0.\u3000 ".data, isOperator r = true ∨ unicode.IsSpace r = true) ∧
      processFile " [ -\t]\n\n+\u00a0.\u3000 " = processFile "[-]+." ∧
      processFile " ] \n[" = processFile "][" :=
  ⟨by decide, processFile_whitespace_insignificant " [ -\t]\n\n+\u00a0.\u3000 " (by decide),
    processFile_whitespace_insignificant " ] \n[" (by decide)⟩

/-- C9: for a non-empty `c` without operator whose first character is not
whitespace, `processFile ("+" ++ c ++ "+")` succeeds, and its body is the line
of `+`, one single comment line holding `c` without its whitespace other than
the plain space, and the line of `+`; and `this is a comment+` gives a comment
line followed by the line of `+`. -/
theorem processFile_comment_preserved (c : String) (hne : c ≠ "")
    (hop : ∀ r ∈ c.data, isOperator r = false)
    (hfirst : ∀ r ∈ c.data.head?, unicode.IsSpace r = false) :
    processFile ("+" ++ c ++ "+") =
        ("\tmem[index]++\n" ++ "\t// " ++ ⟨stripOtherSpace c.data⟩ ++ "\n" ++ "\tmem[index]++\n",
          none) ∧
      processFile "this is a comment+" = ("\t// this is a comment\n\tmem[index]++\n", none) := by
  refine ⟨?_, by decide⟩
  obtain ⟨cs⟩ := c
  cases cs with
  | nil => exact absurd rfl hne
  | cons r rest =>
    have hr : isOperator r = false := hop r (List.mem_cons_self _ _)
    have hsp : unicode.IsSpace r = false := hfirst r rfl
    have hrest : ∀ x ∈ rest, isOperator x = false :=
      fun x hx => hop x (List.mem_cons_of_mem _ hx)
    have hdata : ("+" ++ String.mk (r :: rest) ++ "+").data = '+' :: (r :: (rest ++ ['+'])) :=
      rfl
    have h1 : processLoop ('+' :: (r :: (rest ++ ['+']))) "" initState =
        processLoop (r :: (rest ++ ['+'])) "\tmem[index]++\n" initState := by
      rw [processLoop_cons, if_neg (by decide), if_neg (by decide)]
      rfl
    have h2 : ∀ sb : String,
        processLoop ['+'] sb { NumOpenLoops := 0, WritingComment := true } =
          (none, sb ++ "\n\tmem[index]++\n", initState) := by
      intro sb
      rw [processLoop_cons, if_neg (by decide), if_neg (by decide)]
      rfl
    rw [processFile_eq, hdata, h1, processLoop_open_comment r rest ['+'] _ hr hsp hrest, h2]
    simp only [initState, gt_iff_lt, lt_self_iff_false, if_false, Bool.false_eq_true]
    congr 1
    apply String.ext
    simp only [String.data_append, List.append_assoc]
    rfl

/-- C9 at `c = "hi there"`, and at a `c` holding a tab, a newline and trailing
spaces. -/
theorem processFile_comment_preserved_witness :
    processFile "+hi there+" = ("\tmem[index]++\n\t// hi there\n\tmem[index]++\n", none) ∧
      processFile "+hi \t th\nere  +" =
        ("\tmem[index]++\n\t// hi  there  \n\tmem[index]++\n", none) :=
  ⟨(processFile_comment_preserved "hi there" (by decide) (by decide) (by decide)).1,
    (processFile_comment_preserved "hi \t th\nere  " (by decide) (by decide) (by decide)).1⟩

/-- C10: on an input without operator, `processFile` returns no error; the
body is empty when the input is empty or all whitespace, and otherwise is the
single line `"\t// "`, the input without its leading whitespace and without
its later whitespace other than the plain space, and a line break. -/
theorem processFile_no_operator (input : String)
    (h : ∀ r ∈ input.data, isOperator r = false) :
    processFile input =
      (if input.data.all unicode.IsSpace then ""
        else "\t// " ++ ⟨stripOtherSpace (input.data.dropWhile unicode.IsSpace)⟩ ++ "\n",
        none) := by
  rw [processFile_eq, processLoop_dropWhile_space input.data "" initState rfl]
  cases hd : input.data.dropWhile unicode.IsSpace with
  | nil =>
    have hall : input.data.all unicode.IsSpace = true := by
      rw [List.all_eq_true]
      exact List.dropWhile_eq_nil_iff.mp hd
    rw [hall]
    rfl
  | cons r rest =>
    have hall : ¬ input.data.all unicode.IsSpace = true := by
      rw [List.all_eq_true]
      intro hh
      rw [List.dropWhile_eq_nil_iff.mpr hh] at hd
      cases hd
    have hsub : ∀ x ∈ r :: rest, x ∈ input.data := by
      intro x hx
      rw [← hd] at hx
      exact (List.dropWhile_suffix _).subset hx
    have hr : isOperator r = false := h r (hsub r (List.mem_cons_self _ _))
    have hrest : ∀ x ∈ rest, isOperator x = false :=
      fun x hx => h x (hsub x (List.mem_cons_of_mem _ hx))
    have hsp : unicode.IsSpace r = false := by
      have := List.head_dropWhile_not unicode.IsSpace input.data (by rw [hd]; simp)
      simpa [hd] using this
    have := processLoop_open_comment r rest [] "" hr hsp hrest
    rw [List.append_nil] at this
    rw [this, if_neg hall]
    simp only [processLoop, gt_iff_lt, lt_self_iff_false, if_false, if_true]
    congr 1

/-- C10 at the empty input, at an all-whitespace input and at a comment with
leading, inner and trailing whitespace. -/
theorem processFile_no_operator_witness :
    processFile "" = ("", none) ∧ processFile " \t\n " = ("", none) ∧
      processFile "  a b\tc \n d " = ("\t// a bc  d \n", none) :=
  ⟨processFile_no_operator "" (by decide), processFile_no_operator " \t\n " (by decide),
    processFile_no_operator "  a b\tc \n d " (by decide)⟩

/-- C6: for an input that compiles, the operator lines of the body (its lines
that are not comment lines) are, in order, the lines of the operator characters
of the input; the line of the operator of index `k` is `1 + d` tabs and the
statement of the operator, where `d ≥ 0` is the balance of the operators before
it, less one when it is `]`; a `]` that closes the segment opened by a `[` has
the depth of that `[`; and `[-]` gives the three lines at indents 1, 2, 1. -/
theorem processFile_operator_lines (input : String) (h : (processFile input).2 = none) :
    operatorLines (processFile input).1 =
        (List.range (input.data.filter isOperator).length).map
          (expectedLine (input.data.filter isOperator)) ∧
      (∀ k, k < (input.data.filter isOperator).length →
        0 ≤ lineDepth (input.data.filter isOperator) k) ∧
      (∀ i j, i ≤ j → (input.data.filter isOperator).getD i ' ' = '[' →
        (input.data.filter isOperator).getD j ' ' = ']' →
        balance (((input.data.filter isOperator).take (j + 1)).drop i) = 0 →
        lineDepth (input.data.filter isOperator) i =
          lineDepth (input.data.filter isOperator) j) ∧
      processFile "[-]" = ("\tfor mem[index] != 0 \x7b\n\t\tmem[index]--\n\t\x7d\n", none) := by
  obtain ⟨he, hbody⟩ := processFile_ok input h
  obtain ⟨c, rest, hdata, _, hlines, hdepths⟩ :=
    processLoop_lines input.data "" initState (le_refl _) he
  have hrest : (processFile input).1.data = rest := by
    rw [hbody, hdata]
    simp [initState]
  refine ⟨?_, ?_, ?_, by decide⟩
  · rw [operatorLines, hrest, hlines, opLinesFrom_eq]
    apply List.map_congr_left
    intro k _
    simp only [expectedLine, initState, zero_add]
  · intro k hk
    have := depthsFrom_nonneg _ _ hdepths k hk
    simpa [initState] using this
  · intro i j hij hi hj hb
    exact lineDepth_matching _ i j hij hi hj hb

/-- C6 at `[-]`, and at `a[+b[-]]c.` with commentary between the operators. -/
theorem processFile_operator_lines_witness :
    (processFile "a[+b[-]]c.").2 = none ∧
      operatorLines (processFile "a[+b[-]]c.").1 =
        ["\tfor mem[index] != 0 \x7b".data, "\t\tmem[index]++".data,
          "\t\tfor mem[index] != 0 \x7b".data, "\t\t\tmem[index]--".data, "\t\t\x7d".data,
          "\t\x7d".data, "\tfmt.Printf(\"%c\", mem[index])".data] ∧
      operatorLines (processFile "[-]").1 =
        ["\tfor mem[index] != 0 \x7b".data, "\t\tmem[index]--".data, "\t\x7d".data] :=
  ⟨by decide, (processFile_operator_lines "a[+b[-]]c." (by decide)).1,
    (processFile_operator_lines "[-]" (by decide)).1⟩

/-! ## Further facts on the loop -/

theorem stepState_writing (r : Char) (st : compilerState) :
    (stepState r st).WritingComment = !isOperator r := by
  cases hc : operatorCommand r with
  | none => simp [stepState, hc, operatorCommand_eq_none.mp hc]
  | some c =>
    have : isOperator r = true := by
      rw [← operatorCommand_isSome, hc]
      rfl
    simp [stepState, hc, this]

/-- After the loop, `WritingComment` tells whether the last non-ignored rune
read was commentary; with no such rune it keeps its initial value. -/
theorem processLoop_writing (rs : List Char) (sb : String) (st : compilerState)
    (h : (processLoop rs sb st).1 = none) :
    (processLoop rs sb st).2.2.WritingComment =
      ((nonIgnoredRunes rs st).getLast?.map (fun r => !isOperator r)).getD
        st.WritingComment := by
  induction rs generalizing sb st with
  | nil => rfl
  | cons r rs ih =>
    rw [processLoop_cons] at h ⊢
    rw [nonIgnoredRunes]
    by_cases h1 : isIgnoredRune r st = true
    · rw [if_pos h1] at h ⊢
      rw [if_pos h1]
      exact ih sb st h
    · rw [if_neg h1] at h ⊢
      rw [if_neg h1]
      by_cases h2 : r = ']' ∧ st.NumOpenLoops ≤ 0
      · rw [if_pos h2] at h
        simp at h
      · rw [if_neg h2] at h ⊢
        rw [ih _ _ h, stepState_writing, List.getLast?_cons]
        cases (nonIgnoredRunes rs (stepState r st)).getLast? <;> rfl

theorem tryProcessCommand_of_not_operator (r : Char) (sb : String) (st : compilerState)
    (h : isOperator r = false) : tryProcessCommand r sb st = ((false, none), sb, st) := by
  simp only [tryProcessCommand, operatorCommand_eq_none.mpr h]

/-- Whitespace other than the plain space is skipped in every state. -/
theorem processLoop_stripOtherSpace (rs : List Char) (sb : String) (st : compilerState) :
    processLoop rs sb st = processLoop (stripOtherSpace rs) sb st := by
  induction rs generalizing sb st with
  | nil => rfl
  | cons r rs ih =>
    by_cases hk : (!unicode.IsSpace r || r == ' ') = true
    · have hkeep : stripOtherSpace (r :: rs) = r :: stripOtherSpace rs := by
        simp only [stripOtherSpace, List.filter_cons, hk, if_true]
      rw [hkeep, processLoop_cons, processLoop_cons r (stripOtherSpace rs), ih sb st, ih _ _]
    · have hdrop : stripOtherSpace (r :: rs) = stripOtherSpace rs := by
        simp only [stripOtherSpace, List.filter_cons, hk, Bool.false_eq_true, if_false]
      have hig : isIgnoredRune r st = true := by
        simp only [Bool.or_eq_true, Bool.not_eq_true', beq_iff_eq, not_or, Bool.not_eq_false] at hk
        unfold isIgnoredRune
        cases st.WritingComment <;> simp [hk.1, hk.2]
      rw [hdrop, processLoop_cons, if_pos hig, ih]

/-- The loop of `processFile` only appends to the buffer. -/
theorem processLoop_buffer (rs : List Char) (sb : String) (st : compilerState) :
    processLoop rs sb st =
      ((processLoop rs "" st).1, sb ++ (processLoop rs "" st).2.1, (processLoop rs "" st).2.2) := by
  induction rs generalizing sb st with
  | nil =>
    simp only [processLoop]
    congr 2
    apply String.ext
    simp
  | cons r rs ih =>
    rw [processLoop_cons, processLoop_cons r rs ""]
    by_cases h1 : isIgnoredRune r st = true
    · rw [if_pos h1, if_pos h1]
      exact ih sb st
    · rw [if_neg h1, if_neg h1]
      by_cases h2 : r = ']' ∧ st.NumOpenLoops ≤ 0
      · rw [if_pos h2, if_pos h2]
        congr 2
        cases st.WritingComment <;> apply String.ext <;> simp
      · rw [if_neg h2, if_neg h2, ih (sb ++ stepText r st), ih ("" ++ stepText r st)]
        congr 2
        apply String.ext
        simp

/-- Reading `a ++ b`: the loop reads `a` and, unless it failed, goes on with `b`. -/
theorem processLoop_append (a b : List Char) (sb : String) (st : compilerState) :
    processLoop (a ++ b) sb st =
      match (processLoop a sb st).1 with
      | some e => (some e, (processLoop a sb st).2.1, (processLoop a sb st).2.2)
      | none => processLoop b (processLoop a sb st).2.1 (processLoop a sb st).2.2 := by
  induction a generalizing sb st with
  | nil => rfl
  | cons r rs ih =>
    rw [List.cons_append, processLoop_cons, processLoop_cons r rs]
    by_cases h1 : isIgnoredRune r st = true
    · rw [if_pos h1, if_pos h1]
      exact ih sb st
    · rw [if_neg h1, if_neg h1]
      by_cases h2 : r = ']' ∧ st.NumOpenLoops ≤ 0
      · rw [if_pos h2, if_pos h2]
      · rw [if_neg h2, if_neg h2]
        exact ih _ _

theorem finishBuffer_append (e : Option String) (sb o : String) (st : compilerState) :
    finishBuffer (e, sb ++ o, st) = sb ++ finishBuffer (e, o, st) := by
  unfold finishBuffer
  cases st.WritingComment <;> apply String.ext <;> simp

/-- An input compiles exactly when its loop ends without error at depth zero,
and the body is then the completed buffer. -/
theorem processFile_ok_iff_loop (input : String) :
    (processFile input).2 = none ↔
      (processLoop input.data "" initState).1 = none ∧
        (processLoop input.data "" initState).2.2.NumOpenLoops = 0 := by
  constructor
  · intro h
    have he := (processFile_ok input h).1
    refine ⟨he, ?_⟩
    have hd := processLoop_init_depth input.data he
    have hp := (processLoop_init_ok_iff input.data).mp he input.data (List.prefix_refl _)
    rw [processFile_eq, he] at h
    simp only at h
    by_cases hpos : (processLoop input.data "" initState).2.2.NumOpenLoops > 0
    · rw [if_pos hpos] at h
      simp at h
    · omega
  · rintro ⟨he, hd⟩
    rw [processFile_eq, he]
    simp only
    rw [if_neg (by omega)]

theorem processFile_of_loop (input : String)
    (he : (processLoop input.data "" initState).1 = none)
    (hd : (processLoop input.data "" initState).2.2.NumOpenLoops = 0) :
    processFile input = (finishBuffer (processLoop input.data "" initState), none) := by
  have h := (processFile_ok_iff_loop input).mpr ⟨he, hd⟩
  have hb := (processFile_ok input h).2
  rw [← hb, ← h]

theorem step_operator_writing (r : Char) (hop : isOperator r = true) (d : Int) (wc : Bool) :
    stepState r ⟨d, wc⟩ = stepState r ⟨d, false⟩ ∧
      stepText r ⟨d, wc⟩ = (if wc then "\n" else "") ++ stepText r ⟨d, false⟩ := by
  cases hc : operatorCommand r with
  | none => rw [operatorCommand_eq_none.mp hc] at hop; cases hop
  | some c =>
    refine ⟨by simp [stepState, hc], ?_⟩
    simp only [stepText, hc]
    cases wc <;> apply String.ext <;> simp

/-- From a state at depth 0, reading a sequence that is empty or starts with
an operator: an open comment line is first ended, then the loop behaves as
from the initial state. -/
theorem processLoop_after_comment (b : List Char) (sb : String) (wc : Bool)
    (hfirst : ∀ r ∈ b.head?, isOperator r = true) :
    (processLoop b sb ⟨0, wc⟩).1 = (processLoop b "" initState).1 ∧
      ((processLoop b "" initState).1 = none →
        (processLoop b sb ⟨0, wc⟩).2.2.NumOpenLoops =
            (processLoop b "" initState).2.2.NumOpenLoops ∧
          finishBuffer (processLoop b sb ⟨0, wc⟩) =
            finishBuffer (none, sb, ⟨0, wc⟩) ++ finishBuffer (processLoop b "" initState)) := by
  cases b with
  | nil =>
    refine ⟨rfl, fun _ => ⟨rfl, ?_⟩⟩
    simp only [processLoop, finishBuffer, initState]
    cases wc <;> apply String.ext <;> simp
  | cons r rs =>
    have hop : isOperator r = true := hfirst r rfl
    have hig : ∀ st, ¬ isIgnoredRune r st = true := fun st => by
      simp [isOperator_not_ignored st hop]
    rw [processLoop_cons, processLoop_cons r rs "" initState, if_neg (hig _), if_neg (hig _)]
    by_cases h2 : r = ']' ∧ (0 : Int) ≤ 0
    · have h2' : r = ']' ∧ initState.NumOpenLoops ≤ 0 := h2
      rw [if_pos h2, if_pos h2']
      exact ⟨rfl, fun h => by simp at h⟩
    · have h2' : ¬ (r = ']' ∧ initState.NumOpenLoops ≤ 0) := h2
      rw [if_neg h2, if_neg h2']
      obtain ⟨hs, ht⟩ := step_operator_writing r hop 0 wc
      have hs' : stepState r ⟨0, wc⟩ = stepState r initState := hs
      have ht' : stepText r ⟨0, wc⟩ = (if wc then "\n" else "") ++ stepText r initState := ht
      rw [hs', ht', processLoop_buffer rs (sb ++ _), processLoop_buffer rs ("" ++ _)]
      refine ⟨rfl, fun _ => ⟨rfl, ?_⟩⟩
      rw [finishBuffer_append, finishBuffer_append]
      simp only [finishBuffer]
      cases wc <;> apply String.ext <;> simp

theorem not_comment_of_loop_open {l : List Char} (h : isLoopOpenLine l = true) :
    isCommentLine l = false := by
  unfold isLoopOpenLine at h
  unfold isCommentLine
  rw [beq_iff_eq] at h
  rw [h]
  decide

theorem loop_open_lineAt (d : Int) {r : Char} (h : isOperator r = true) :
    isLoopOpenLine (lineAt d r) = (r == '[') := by
  simp only [isOperator, operators, decide_eq_true_eq, List.mem_cons, List.mem_singleton,
    List.mem_nil_iff, or_false] at h
  unfold isLoopOpenLine lineAt
  rw [dropWhile_tabs]
  rcases h with h | h | h | h | h | h | h | h <;> subst h <;> decide

theorem countP_loop_open_opLines (d : Int) (ops : List Char)
    (h : ∀ r ∈ ops, isOperator r = true) :
    (opLinesFrom d ops).countP isLoopOpenLine = ops.count '[' := by
  induction ops generalizing d with
  | nil => rfl
  | cons r ops ih =>
    have hr := h r (List.mem_cons_self _ _)
    have hrs : ∀ x ∈ ops, isOperator x = true := fun x hx => h x (List.mem_cons_of_mem _ hx)
    rw [opLinesFrom, List.countP_cons, loop_open_lineAt d hr, ih _ hrs, List.count_cons]

/-- The first text written at depth zero outside a comment starts with a tab. -/
theorem stepText_init_head (r : Char) (hr : r ≠ ']') :
    ∃ t, (stepText r initState).data = '\t' :: t := by
  cases hc : operatorCommand r with
  | none =>
    refine ⟨"// ".data ++ [r], ?_⟩
    simp only [stepText, hc, initState, Bool.false_eq_true, if_false, String.data_append,
      String.singleton]
    rfl
  | some c =>
    refine ⟨c.data ++ ['\n'], ?_⟩
    simp only [stepText, hc, hr, initState, Bool.false_eq_true, if_false, String.data_append]
    rfl

theorem stepText_operator_last {r : Char} (st : compilerState) (h : isOperator r = true) :
    (stepText r st).data.getLast? = some '\n' := by
  cases hc : operatorCommand r with
  | none => rw [operatorCommand_eq_none.mp hc] at h; cases h
  | some c =>
    simp only [stepText, hc, String.data_append]
    exact List.getLast?_concat _

/-- Once a comment is open or the buffer ends with a line break, the completed
buffer ends with a line break. -/
theorem processLoop_ends_newline (rs : List Char) (sb : String) (st : compilerState)
    (h : (processLoop rs sb st).1 = none)
    (hI : st.WritingComment = true ∨ sb.data.getLast? = some '\n') :
    (finishBuffer (processLoop rs sb st)).data.getLast? = some '\n' := by
  induction rs generalizing sb st with
  | nil =>
    simp only [processLoop, finishBuffer]
    cases hw : st.WritingComment
    · rw [hw] at hI
      simpa using hI
    · simp
  | cons r rs ih =>
    rw [processLoop_cons] at h ⊢
    by_cases h1 : isIgnoredRune r st = true
    · rw [if_pos h1] at h ⊢
      exact ih sb st h hI
    · rw [if_neg h1] at h ⊢
      by_cases h2 : r = ']' ∧ st.NumOpenLoops ≤ 0
      · rw [if_pos h2] at h
        simp at h
      · rw [if_neg h2] at h ⊢
        apply ih _ _ h
        rw [stepState_writing]
        cases hop : isOperator r
        · left
          rfl
        · right
          have hl := stepText_operator_last st hop
          rw [String.data_append, List.getLast?_append, hl]
          rfl

theorem tabs_succ (k : Nat) : tabs ((k : Int) + 1) = ⟨List.replicate (k + 1) '\t'⟩ := by
  unfold tabs
  have : ((k : Int) + 1).toNat = k + 1 := by omega
  rw [this]

/-- Reading `k` times `[` outside a comment from depth `d`. -/
theorem processLoop_opens (k : Nat) (sb : String) :
    processLoop (List.replicate k '[') sb initState =
      (none, sb ++ ⟨loopOpenLines k⟩, ⟨k, false⟩) := by
  induction k with
  | zero =>
    simp only [List.replicate_zero, processLoop, loopOpenLines]
    congr 2
    apply String.ext
    simp
  | succ k ih =>
    have hstep : ∀ X : String, processLoop ['['] X ⟨k, false⟩ =
        (none, X ++ (tabs ((k : Int) + 1) ++ "for mem[index] != 0 \x7b\n"), ⟨(k : Int) + 1, false⟩) := by
      intro X
      rw [processLoop_cons,
        if_neg (by simp [isOperator_not_ignored _ (show isOperator '[' = true by decide)]),
        if_neg (fun hh => absurd hh.1 (by decide)), processLoop]
      congr 2
      simp only [stepText, show operatorCommand '[' = some "for mem[index] != 0 \x7b" from rfl,
        Bool.false_eq_true, if_false, show ¬ (('[' : Char) = ']') by decide]
      apply String.ext
      simp only [String.data_append, List.append_assoc, List.nil_append]
      rfl
    rw [List.replicate_succ', processLoop_append, ih]
    simp only
    rw [hstep, tabs_succ, loopOpenLines]
    congr 2
    apply String.ext
    simp

/-- Reading `k` times `]` outside a comment from depth `k`. -/
theorem processLoop_closes (k : Nat) (sb : String) :
    processLoop (List.replicate k ']') sb ⟨k, false⟩ =
      (none, sb ++ ⟨loopCloseLines k⟩, initState) := by
  induction k generalizing sb with
  | zero =>
    simp only [List.replicate_zero, processLoop, loopCloseLines]
    congr 2
    apply String.ext
    simp
  | succ k ih =>
    have hpos : ¬ ((']' : Char) = ']' ∧ ((k + 1 : Nat) : Int) ≤ 0) := by
      intro h
      have := h.2
      omega
    rw [List.replicate_succ, processLoop_cons,
      if_neg (by simp [isOperator_not_ignored _ (show isOperator ']' = true by decide)]),
      if_neg hpos]
    have hst : stepState ']' ⟨((k + 1 : Nat) : Int), false⟩ = ⟨(k : Int), false⟩ := by
      simp [stepState, show operatorCommand ']' = some "\x7d" from rfl]
    have htx : stepText ']' ⟨((k + 1 : Nat) : Int), false⟩ =
        ⟨List.replicate (k + 1) '\t' ++ "\x7d\n".data⟩ := by
      simp only [stepText, show operatorCommand ']' = some "\x7d" from rfl,
        Bool.false_eq_true, if_false, if_true]
      have : ((k + 1 : Nat) : Int) - 1 + 1 = (k : Int) + 1 := by omega
      rw [this, tabs_succ]
      apply String.ext
      simp only [String.data_append, List.append_assoc, List.nil_append]
      rfl
    rw [hst, htx, ih, loopCloseLines]
    congr 2
    apply String.ext
    simp

/-- A non-empty text without operator and without whitespace, read outside a
comment: one comment line is opened at the current depth and holds the text. -/
theorem processLoop_comment_text (c : List Char) (sb : String) (d : Int) (hne : c ≠ [])
    (hc : ∀ r ∈ c, isOperator r = false ∧ unicode.IsSpace r = false) :
    processLoop c sb ⟨d, false⟩ =
      (none, sb ++ tabs (d + 1) ++ "// " ++ ⟨c⟩, ⟨d, true⟩) := by
  cases c with
  | nil => exact absurd rfl hne
  | cons r rest =>
    obtain ⟨hr, hsp⟩ := hc r (List.mem_cons_self _ _)
    have hrest : ∀ x ∈ rest, isOperator x = false :=
      fun x hx => (hc x (List.mem_cons_of_mem _ hx)).1
    have hstrip : stripOtherSpace rest = rest := by
      unfold stripOtherSpace
      rw [List.filter_eq_self]
      intro x hx
      simp [(hc x (List.mem_cons_of_mem _ hx)).2]
    have hig : ¬ isIgnoredRune r ⟨d, false⟩ = true := by
      simp [isIgnoredRune, hsp]
    rw [processLoop_cons, if_neg hig, if_neg (fun hh => not_close_of_not_operator hr hh.1),
      (step_comment hr _).1, (step_comment hr _).2]
    have := processLoop_comment_run rest []
      (sb ++ ((if (false : Bool) = true then "" else tabs (d + 1) ++ "// ") ++ String.singleton r))
      ⟨d, true⟩ rfl hrest
    rw [List.append_nil] at this
    simp only [Bool.false_eq_true, if_false] at this ⊢
    rw [this, hstrip, processLoop]
    congr 2
    apply String.ext
    simp [String.singleton]

/-- Reading `k` times `]` inside a comment from depth `k`: the comment line is
ended, then the `k` loop-close lines are written. -/
theorem processLoop_closes_comment (k : Nat) (sb : String) :
    (processLoop (List.replicate k ']') sb ⟨k, true⟩).1 = none ∧
      (processLoop (List.replicate k ']') sb ⟨k, true⟩).2.2.NumOpenLoops = 0 ∧
      finishBuffer (processLoop (List.replicate k ']') sb ⟨k, true⟩) =
        sb ++ "\n" ++ ⟨loopCloseLines k⟩ := by
  cases k with
  | zero =>
    refine ⟨rfl, rfl, ?_⟩
    simp only [List.replicate_zero, processLoop, finishBuffer, loopCloseLines]
    apply String.ext
    simp
  | succ k =>
    have hpos : ¬ ((']' : Char) = ']' ∧ ((k + 1 : Nat) : Int) ≤ 0) := by
      intro h
      have := h.2
      omega
    have hst : stepState ']' ⟨((k + 1 : Nat) : Int), true⟩ = ⟨(k : Int), false⟩ := by
      simp [stepState, show operatorCommand ']' = some "\x7d" from rfl]
    have htx : stepText ']' ⟨((k + 1 : Nat) : Int), true⟩ =
        ⟨'\n' :: (List.replicate (k + 1) '\t' ++ "\x7d\n".data)⟩ := by
      simp only [stepText, show operatorCommand ']' = some "\x7d" from rfl, if_true]
      have : ((k + 1 : Nat) : Int) - 1 + 1 = (k : Int) + 1 := by omega
      rw [this, tabs_succ]
      apply String.ext
      simp only [String.data_append, List.append_assoc]
      rfl
    rw [List.replicate_succ, processLoop_cons,
      if_neg (by simp [isOperator_not_ignored _ (show isOperator ']' = true by decide)]),
      if_neg hpos, hst, htx, processLoop_closes]
    refine ⟨rfl, rfl, ?_⟩
    simp only [finishBuffer, initState, Bool.false_eq_true, if_false, loopCloseLines]
    apply String.ext
    simp

/-- The comment lines opened by the loop, in terms of the segments between
operators: the first segment opens none when a comment is already open. -/
theorem runsFrom_eq (wc : Bool) (l : List Char) :
    runsFrom wc l =
      (l.splitOnP isOperator).tail.countP hasText +
        (if !wc && hasText ((l.splitOnP isOperator).headD []) then 1 else 0) := by
  induction l generalizing wc with
  | nil => cases wc <;> rfl
  | cons r rs ih =>
    obtain ⟨seg, segs, hs⟩ : ∃ seg segs, rs.splitOnP isOperator = seg :: segs := by
      cases h : rs.splitOnP isOperator with
      | nil => exact absurd h (List.splitOnP_ne_nil _ _)
      | cons a b => exact ⟨a, b, rfl⟩
    rw [runsFrom, List.splitOnP_cons]
    by_cases hop : isOperator r = true
    · rw [if_pos hop, if_pos hop, ih false, hs]
      simp only [List.tail_cons, List.headD_cons, List.countP_cons, hasText, List.any_nil,
        Bool.and_false, Bool.false_eq_true, if_false, Bool.not_false, Bool.true_and]
      omega
    · rw [if_neg hop, if_neg hop, hs, List.modifyHead_cons]
      simp only [List.tail_cons, List.headD_cons]
      by_cases hsp : unicode.IsSpace r = true
      · rw [if_pos hsp, ih wc, hs]
        simp [hasText, hsp]
      · rw [if_neg hsp, ih true, hs]
        simp only [Bool.not_eq_true] at hsp
        cases wc <;> simp [hasText, hsp]
        omega

theorem runsFrom_false_eq (l : List Char) : runsFrom false l = commentRuns l := by
  rw [runsFrom_eq, commentRuns]
  cases h : l.splitOnP isOperator with
  | nil => exact absurd h (List.splitOnP_ne_nil _ _)
  | cons a b => simp [List.countP_cons]

theorem not_ignored_space {r : Char} {st : compilerState} (hw : st.WritingComment = true)
    (h : ¬ isIgnoredRune r st = true) : unicode.IsSpace r = true → r = ' ' := by
  intro hsp
  simp only [isIgnoredRune, hw, Bool.not_true, Bool.false_eq_true, if_false, hsp,
    Bool.true_and, bne_iff_ne, ne_eq, not_not] at h
  exact h

theorem not_ignored_not_space {r : Char} {st : compilerState} (hw : st.WritingComment = false)
    (h : ¬ isIgnoredRune r st = true) : unicode.IsSpace r = false := by
  simp only [isIgnoredRune, hw, Bool.not_false, if_true, Bool.not_eq_true] at h
  exact h

theorem ignored_space {r : Char} {st : compilerState} (h : isIgnoredRune r st = true) :
    unicode.IsSpace r = true := by
  unfold isIgnoredRune at h
  split_ifs at h
  · exact h
  · simp only [Bool.and_eq_true] at h
    exact h.1

/-- The text written by the loop of `processFile`, completed as `processFile`
does: the end `c` of the comment line that was open (if any), then text
`rest` made of statement lines and commentary lines, with one line break per
operator read and per comment line opened. -/
theorem processLoop_shape (rs : List Char) (sb : String) (st : compilerState)
    (h : (processLoop rs sb st).1 = none) :
    ∃ c rest,
      (finishBuffer (processLoop rs sb st)).data =
          sb.data ++ (if st.WritingComment then c ++ ['\n'] else []) ++ rest ∧
        '\n' ∉ c ∧
        (∀ x ∈ c, unicode.IsSpace x = true → x = ' ') ∧
        rest.count '\n' = (rs.filter isOperator).length + runsFrom st.WritingComment rs ∧
        ∀ l ∈ splitLines rest, isStatementLine l ∨ isCommentaryLine l := by
  induction rs generalizing sb st with
  | nil =>
    refine ⟨[], [], ?_, by simp, by simp, rfl, by simp [splitLines]⟩
    simp only [processLoop, finishBuffer]
    cases st.WritingComment <;> simp
  | cons r rs ih =>
    rw [processLoop_cons] at h ⊢
    by_cases h1 : isIgnoredRune r st = true
    · rw [if_pos h1] at h ⊢
      have hno : isOperator r = false := ignored_not_operator h1
      have hf : (r :: rs).filter isOperator = rs.filter isOperator :=
        List.filter_cons_of_neg (by simp [hno])
      have hruns : runsFrom st.WritingComment (r :: rs) = runsFrom st.WritingComment rs := by
        rw [runsFrom, if_neg (by simp [hno]), if_pos (ignored_space h1)]
      rw [hf, hruns]
      exact ih sb st h
    · rw [if_neg h1] at h ⊢
      by_cases h2 : r = ']' ∧ st.NumOpenLoops ≤ 0
      · rw [if_pos h2] at h
        simp at h
      · rw [if_neg h2] at h ⊢
        obtain ⟨c', rest', hdata, hc', hsp', hcount, hshape⟩ := ih _ _ h
        rw [hdata]
        have hrn := not_ignored_ne_newline h1
        have hw := stepState_writing r st
        cases hc : operatorCommand r with
        | some command =>
          have hop : isOperator r = true := by
            rw [← operatorCommand_isSome, hc]
            rfl
          rw [hop] at hw
          simp only [Bool.not_true] at hw
          rw [hw] at hcount
          obtain ⟨hnl, _⟩ := command_line r command
            ((if r = ']' then st.NumOpenLoops - 1 else st.NumOpenLoops) + 1).toNat hc
          refine ⟨[], (List.replicate
            ((if r = ']' then st.NumOpenLoops - 1 else st.NumOpenLoops) + 1).toNat '\t' ++
              command.data) ++ '\n' :: rest', ?_, by simp, by simp, ?_, ?_⟩
          · simp only [hw, stepText, hc, tabs]
            cases st.WritingComment <;> simp
          · have hf : (r :: rs).filter isOperator = r :: rs.filter isOperator :=
              List.filter_cons_of_pos hop
            have hruns : runsFrom st.WritingComment (r :: rs) = runsFrom false rs := by
              rw [runsFrom, if_pos hop]
            rw [hf, hruns, List.count_append, List.count_eq_zero_of_not_mem hnl,
              List.count_cons_self, hcount, List.length_cons]
            omega
          · rw [splitLines_line _ _ hnl]
            intro l hl
            rcases List.mem_cons.mp hl with rfl | hl
            · exact Or.inl ⟨_, r, command, hc, rfl⟩
            · exact hshape l hl
        | none =>
          have hop : isOperator r = false := operatorCommand_eq_none.mp hc
          obtain ⟨htx, _⟩ := step_comment hop st
          rw [hop] at hw
          simp only [Bool.not_false] at hw
          rw [hw] at hcount
          have hf : (r :: rs).filter isOperator = rs.filter isOperator :=
            List.filter_cons_of_neg (by simp [hop])
          have hruns : runsFrom st.WritingComment (r :: rs) =
              if unicode.IsSpace r = true then runsFrom st.WritingComment rs
              else (if st.WritingComment = true then 0 else 1) + runsFrom true rs := by
            rw [runsFrom, if_neg (by simp [hop])]
          rw [hf, hruns]
          cases hwc : st.WritingComment
          · have hnsp := not_ignored_not_space hwc h1
            have hline : '\n' ∉ List.replicate (st.NumOpenLoops + 1).toNat '\t' ++
                ("// ".data ++ r :: c') := by
              intro hm
              rcases List.mem_append.mp hm with hm | hm
              · exact newline_not_mem_tabs _ hm
              · rcases List.mem_append.mp hm with hm | hm
                · exact absurd hm (by decide)
                · rcases List.mem_cons.mp hm with hm | hm
                  · exact hrn hm.symm
                  · exact hc' hm
            refine ⟨[], (List.replicate (st.NumOpenLoops + 1).toNat '\t' ++
              ("// ".data ++ r :: c')) ++ '\n' :: rest', ?_, by simp, by simp, ?_, ?_⟩
            · simp [hw, htx, hwc, tabs, String.singleton]
            · rw [if_neg (by simp [hnsp]), List.count_append,
                List.count_eq_zero_of_not_mem hline, List.count_cons_self, hcount]
              simp only [Bool.false_eq_true, if_false]
              omega
            · rw [splitLines_line _ _ hline]
              intro l hl
              rcases List.mem_cons.mp hl with rfl | hl
              · refine Or.inr ⟨_, r :: c', rfl, ?_⟩
                intro x hx
                rcases List.mem_cons.mp hx with rfl | hx
                · intro hsx
                  rw [hnsp] at hsx
                  cases hsx
                · exact hsp' x hx
              · exact hshape l hl
          · have hsr := not_ignored_space hwc h1
            refine ⟨r :: c', rest', ?_, ?_, ?_, ?_, hshape⟩
            · simp [hw, htx, hwc, String.singleton]
            · intro hm
              rcases List.mem_cons.mp hm with hm | hm
              · exact hrn hm.symm
              · exact hc' hm
            · intro x hx
              rcases List.mem_cons.mp hx with rfl | hx
              · exact hsr
              · exact hsp' x hx
            · rw [hcount]
              by_cases hsp : unicode.IsSpace r = true
              · rw [if_pos hsp]
              · rw [if_neg hsp]
                simp

theorem indentFrom_false_text (l tail : List Char) (hl : '\n' ∉ l) :
    indentFrom false (l ++ tail) = l ++ indentFrom false tail := by
  induction l with
  | nil => rfl
  | cons c l ih =>
    have hc : (c == '\n') = false := by
      rw [beq_eq_false_iff_ne]
      intro e
      exact hl (by simp [e])
    have hl2 : '\n' ∉ l := fun hm => hl (List.mem_cons_of_mem _ hm)
    rw [List.cons_append, indentFrom, hc, ih hl2]
    rfl

theorem indentFrom_true_text (c : Char) (l tail : List Char) (hl : '\n' ∉ c :: l) :
    indentFrom true (c :: l ++ tail) = '\t' :: (c :: l ++ indentFrom false tail) := by
  have hc : (c == '\n') = false := by
    rw [beq_eq_false_iff_ne]
    intro e
    exact hl (by simp [e])
  have hl2 : '\n' ∉ l := fun hm => hl (List.mem_cons_of_mem _ hm)
  rw [List.cons_append, indentFrom, hc, indentFrom_false_text l tail hl2]
  rfl

theorem indentFrom_false_newline (tail : List Char) :
    indentFrom false ('\n' :: tail) = '\n' :: indentFrom true tail := rfl

theorem stepState_deeper (r : Char) (st : compilerState) :
    stepState r ⟨st.NumOpenLoops + 1, st.WritingComment⟩ =
      ⟨(stepState r st).NumOpenLoops + 1, (stepState r st).WritingComment⟩ := by
  cases hc : operatorCommand r with
  | none => simp [stepState, hc]
  | some c =>
    simp only [stepState, hc]
    congr 1
    split_ifs <;> omega

theorem isIgnoredRune_deeper (r : Char) (st : compilerState) :
    isIgnoredRune r ⟨st.NumOpenLoops + 1, st.WritingComment⟩ = isIgnoredRune r st := rfl

/-- The text of one step read one level deeper is the text of the step with a
tab inserted at the start of its lines. -/
theorem stepText_indent (r : Char) (st : compilerState) (h0 : 0 ≤ st.NumOpenLoops)
    (h1 : ¬ isIgnoredRune r st = true) (h2 : ¬ (r = ']' ∧ st.NumOpenLoops ≤ 0))
    (tail : List Char) :
    indentFrom (!st.WritingComment) ((stepText r st).data ++ tail) =
      (stepText r ⟨st.NumOpenLoops + 1, st.WritingComment⟩).data ++
        indentFrom (!(stepState r st).WritingComment) tail := by
  have hrn := not_ignored_ne_newline h1
  rw [stepState_writing]
  cases hc : operatorCommand r with
  | some command =>
    have hop : isOperator r = true := by
      rw [← operatorCommand_isSome, hc]
      rfl
    obtain ⟨m, hm, hm1⟩ : ∃ m : Nat,
        ((if r = ']' then st.NumOpenLoops - 1 else st.NumOpenLoops) + 1).toNat = m + 1 ∧
        ((if r = ']' then st.NumOpenLoops + 1 - 1 else st.NumOpenLoops + 1) + 1).toNat =
          m + 2 := by
      by_cases hr : r = ']'
      · have : ¬ st.NumOpenLoops ≤ 0 := fun hle => h2 ⟨hr, hle⟩
        refine ⟨(st.NumOpenLoops - 1).toNat, ?_, ?_⟩ <;> simp only [hr, if_true] <;> omega
      · refine ⟨st.NumOpenLoops.toNat, ?_, ?_⟩ <;> simp only [hr, if_false] <;> omega
    obtain ⟨hnl, _⟩ := command_line r command (m + 1) hc
    have hT : (stepText r st).data =
        (if st.WritingComment then ['\n'] else []) ++
          ('\t' :: (List.replicate m '\t' ++ command.data) ++ ['\n']) := by
      simp only [stepText, hc, tabs, hm, String.data_append, List.replicate_succ]
      cases st.WritingComment <;> simp
    have hT1 : (stepText r ⟨st.NumOpenLoops + 1, st.WritingComment⟩).data =
        (if st.WritingComment then ['\n'] else []) ++
          ('\t' :: '\t' :: (List.replicate m '\t' ++ command.data) ++ ['\n']) := by
      simp only [stepText, hc, tabs, hm1, String.data_append, List.replicate_succ]
      cases st.WritingComment <;> simp
    have hnl2 : '\n' ∉ '\t' :: (List.replicate m '\t' ++ command.data) := by
      simpa [List.replicate_succ] using hnl
    have hline : indentFrom true
        (('\t' :: (List.replicate m '\t' ++ command.data) ++ ['\n']) ++ tail) =
        ('\t' :: '\t' :: (List.replicate m '\t' ++ command.data) ++ ['\n']) ++
          indentFrom true tail := by
      have := indentFrom_true_text '\t' (List.replicate m '\t' ++ command.data)
        ('\n' :: tail) hnl2
      rw [indentFrom_false_newline] at this
      simpa using this
    rw [hT, hT1, hop]
    cases st.WritingComment
    · simpa using hline
    · have := congrArg (fun x => '\n' :: x) hline
      simpa [indentFrom_false_newline] using this
  | none =>
    have hop : isOperator r = false := operatorCommand_eq_none.mp hc
    rw [hop, (step_comment hop st).1, (step_comment hop _).1]
    cases hwc : st.WritingComment
    · have hD : ((st.NumOpenLoops + 1 + 1).toNat) = (st.NumOpenLoops + 1).toNat + 1 := by
        omega
      have hline : '\n' ∉ '\t' :: (List.replicate (st.NumOpenLoops + 1).toNat '\t' ++
          ("// ".data ++ [r])) := by
        intro hm
        rcases List.mem_cons.mp hm with hm | hm
        · exact absurd hm (by decide)
        · rcases List.mem_append.mp hm with hm | hm
          · exact newline_not_mem_tabs _ hm
          · rcases List.mem_append.mp hm with hm | hm
            · exact absurd hm (by decide)
            · exact hrn (List.mem_singleton.mp hm).symm
      have hpos : (st.NumOpenLoops + 1).toNat = st.NumOpenLoops.toNat + 1 := by omega
      have := indentFrom_true_text '\t'
        (List.replicate st.NumOpenLoops.toNat '\t' ++ ("// ".data ++ [r])) tail (by
          intro hm
          apply hline
          rw [hpos, List.replicate_succ]
          rcases List.mem_cons.mp hm with hm | hm
          · exact absurd hm (by decide)
          · exact List.mem_cons_of_mem _ (List.mem_cons_of_mem _ hm))
      simp only [Bool.false_eq_true, if_false, Bool.not_false, tabs, hD, hpos,
        String.data_append, String.singleton, List.replicate_succ, List.cons_append,
        List.append_assoc] at this ⊢
      exact this
    · have hr : (r == '\n') = false := by
        rw [beq_eq_false_iff_ne]
        exact hrn
      simp only [if_true, Bool.not_true, String.data_append, String.singleton,
        List.cons_append, List.nil_append, indentFrom, hr, Bool.false_eq_true, if_false]
      rfl

/-- Reading a rune sequence one level deeper: the loop fails neither, it ends
one level deeper, and its text is the text of the shallower run with a tab
inserted at the start of every line. -/
theorem processLoop_indent (rs : List Char) (st : compilerState)
    (h0 : 0 ≤ st.NumOpenLoops) (h : (processLoop rs "" st).1 = none) :
    (processLoop rs "" ⟨st.NumOpenLoops + 1, st.WritingComment⟩).1 = none ∧
      (processLoop rs "" ⟨st.NumOpenLoops + 1, st.WritingComment⟩).2.2 =
        ⟨(processLoop rs "" st).2.2.NumOpenLoops + 1,
          (processLoop rs "" st).2.2.WritingComment⟩ ∧
      ∀ tail, indentFrom (!st.WritingComment) ((processLoop rs "" st).2.1.data ++ tail) =
        (processLoop rs "" ⟨st.NumOpenLoops + 1, st.WritingComment⟩).2.1.data ++
          indentFrom (!(processLoop rs "" st).2.2.WritingComment) tail := by
  induction rs generalizing st with
  | nil =>
    refine ⟨rfl, rfl, fun tail => ?_⟩
    simp [processLoop]
  | cons r rs ih =>
    have e0 := processLoop_cons r rs "" st
    have e1 := processLoop_cons r rs "" ⟨st.NumOpenLoops + 1, st.WritingComment⟩
    rw [isIgnoredRune_deeper] at e1
    dsimp only at e1
    by_cases h1 : isIgnoredRune r st = true
    · rw [if_pos h1] at e0 e1
      rw [e0] at h ⊢
      rw [e1]
      exact ih st h0 h
    · rw [if_neg h1] at e0 e1
      by_cases h2 : r = ']' ∧ st.NumOpenLoops ≤ 0
      · rw [if_pos h2] at e0
        rw [e0] at h
        simp at h
      · have h2' : ¬ (r = ']' ∧ st.NumOpenLoops + 1 ≤ 0) := by
          intro hh
          have := hh.2
          omega
        rw [if_neg h2, processLoop_buffer rs ("" ++ stepText r st)] at e0
        rw [if_neg h2', stepState_deeper,
          processLoop_buffer rs
            ("" ++ stepText r ⟨st.NumOpenLoops + 1, st.WritingComment⟩)] at e1
        rw [e0] at h ⊢
        rw [e1]
        obtain ⟨ih1, ih2, ih3⟩ := ih (stepState r st) (stepState_nonneg h0 h2) h
        refine ⟨ih1, ih2, fun tail => ?_⟩
        simp only [String.data_append, List.append_assoc]
        rw [List.nil_append, List.nil_append, stepText_indent r st h0 h1 h2, ih3]

/-! ## Further properties -/

/-- C11: whitespace other than the plain space never affects the result:
`processFile` returns the same pair on an input and on the input with every
whitespace character other than `' '` deleted. -/
theorem processFile_other_whitespace (input : String) :
    processFile input = processFile ⟨stripOtherSpace input.data⟩ := by
  rw [processFile_eq, processFile_eq, processLoop_stripOtherSpace input.data "" initState]

theorem two_pow_bits (bits : Nat) (hb : 0 < bits) :
    (2 : Int) ^ bits = 2 * 2 ^ (bits - 1) := by
  obtain ⟨n, rfl⟩ : ∃ n, bits = n + 1 := ⟨bits - 1, by omega⟩
  rw [Nat.add_sub_cancel, pow_succ]
  ring

theorem two_pow_pos (n : Nat) : (0 : Int) < 2 ^ n := by positivity

/-- A value in the range of the `int` is not changed by the wrap-around. -/
theorem wrapInt_of_range (bits : Nat) (hb : 0 < bits) (x : Int)
    (h1 : -(2 ^ (bits - 1)) ≤ x) (h2 : x < 2 ^ (bits - 1)) : wrapInt bits x = x := by
  unfold wrapInt
  rw [two_pow_bits bits hb, Int.emod_eq_of_lt (by omega) (by omega)]
  omega

/-- Where neither the decrement nor the increment overflows, the machine
arithmetic of `tryProcessCommand` is the exact arithmetic. -/
theorem tryProcessCommandWrap_eq (bits : Nat) (hb : 0 < bits) (r : Char) (sb : String)
    (st : compilerState) (h1 : -(2 ^ (bits - 1)) < st.NumOpenLoops)
    (h2 : st.NumOpenLoops + 1 < 2 ^ (bits - 1)) :
    tryProcessCommandWrap bits r sb st = tryProcessCommand r sb st := by
  have hp := two_pow_pos (bits - 1)
  have e1 : wrapInt bits (st.NumOpenLoops - 1) = st.NumOpenLoops - 1 :=
    wrapInt_of_range bits hb _ (by omega) (by omega)
  have e2 : wrapInt bits (st.NumOpenLoops + 1) = st.NumOpenLoops + 1 :=
    wrapInt_of_range bits hb _ (by omega) (by omega)
  have e3 : wrapInt bits (st.NumOpenLoops - 1 + 1) = st.NumOpenLoops - 1 + 1 :=
    wrapInt_of_range bits hb _ (by omega) (by omega)
  unfold tryProcessCommandWrap tryProcessCommand
  cases hc : operatorCommand r with
  | none => rfl
  | some command =>
    by_cases hr : r = ']'
    · simp only [hr, if_true, e1, e3]
    · simp only [hr, if_false, e2]

/-- C15 as stated fails: `tryProcessCommand` called on `]` at depth 0 returns
the loop-close error and leaves `NumOpenLoops` at `-1`; and called on `[` at
the largest 64-bit `int` it returns no error and leaves the smallest `int`. -/
theorem tryProcessCommand_close_leaves_negative :
    ((0 : Int) ≤ initState.NumOpenLoops ∧
        (tryProcessCommandWrap 64 ']' "" initState).1 = (false, some errLoopClose) ∧
        (tryProcessCommandWrap 64 ']' "" initState).2.2.NumOpenLoops = -1 ∧
        ¬ (0 ≤ (tryProcessCommandWrap 64 ']' "" initState).2.2.NumOpenLoops)) ∧
      ((0 : Int) ≤ 2 ^ 63 - 1 ∧
        (tryProcessCommandWrap 64 '[' "" ⟨2 ^ 63 - 1, false⟩).1 = (true, none) ∧
        (tryProcessCommandWrap 64 '[' "" ⟨2 ^ 63 - 1, false⟩).2.2.NumOpenLoops = -(2 ^ 63) ∧
        ¬ (0 ≤ (tryProcessCommandWrap 64 '[' "" ⟨2 ^ 63 - 1, false⟩).2.2.NumOpenLoops)) := by
  decide

/-- C15 (amended): from a state whose `NumOpenLoops` is a non-negative `int`
(of `bits` bits), `tryProcessCommand` returns an error exactly when the rune
is `]` and `NumOpenLoops` is 0, and it then leaves `NumOpenLoops` at `-1`;
whenever it returns no error the state it leaves has `NumOpenLoops ≥ 0`,
provided that `NumOpenLoops` is below the largest `int` when the rune is `[`. -/
theorem tryProcessCommand_depth (bits : Nat) (hb : 0 < bits) (r : Char) (sb : String)
    (st : compilerState) (h0 : 0 ≤ st.NumOpenLoops)
    (hmax : st.NumOpenLoops < 2 ^ (bits - 1)) :
    ((tryProcessCommandWrap bits r sb st).1.2 ≠ none ↔ (r = ']' ∧ st.NumOpenLoops = 0)) ∧
      ((tryProcessCommandWrap bits r sb st).1.2 ≠ none →
        (tryProcessCommandWrap bits r sb st).1 = (false, some errLoopClose) ∧
          (tryProcessCommandWrap bits r sb st).2.2.NumOpenLoops = -1) ∧
      ((tryProcessCommandWrap bits r sb st).1.2 = none →
        (r = '[' → st.NumOpenLoops + 1 < 2 ^ (bits - 1)) →
        0 ≤ (tryProcessCommandWrap bits r sb st).2.2.NumOpenLoops) := by
  have hp := two_pow_pos (bits - 1)
  cases hc : operatorCommand r with
  | none =>
    have hr : r ≠ ']' := by
      intro e
      subst e
      exact absurd hc (by decide)
    simp [tryProcessCommandWrap, hc, hr, h0]
  | some command =>
    by_cases hr : r = ']'
    · subst hr
      have e1 : wrapInt bits (st.NumOpenLoops - 1) = st.NumOpenLoops - 1 :=
        wrapInt_of_range bits hb _ (by omega) (by omega)
      by_cases hd : st.NumOpenLoops = 0
      · have e1' : wrapInt bits (-1) = -1 := by simpa [hd] using e1
        simp [tryProcessCommandWrap, hc, hd, e1']
      · have hpos : ¬ st.NumOpenLoops - 1 < 0 := by omega
        have hnb : ¬ ((']' : Char) = '[') := by decide
        simp only [tryProcessCommandWrap, hc, if_true, e1, hpos, and_false, if_false, hnb,
          ne_eq, not_true_eq_false, true_and, hd, false_implies, true_implies, false_iff,
          not_false_eq_true, and_true]
        omega
    · by_cases hbr : r = '['
      · subst hbr
        simp only [tryProcessCommandWrap, hc, hr, if_false, false_and, if_true, ne_eq,
          not_true_eq_false, false_implies, true_implies, true_and, false_iff, and_true]
        intro hlt
        rw [wrapInt_of_range bits hb _ (by omega) hlt]
        omega
      · simp only [tryProcessCommandWrap, hc, hr, hbr, if_false, false_and, ne_eq,
          not_true_eq_false, false_implies, true_implies, true_and, false_iff, and_true]
        exact h0

/-- C15 (amended) for a 64-bit `int`: at `[` read at depth 1, and at `]` read
at depth 0. -/
theorem tryProcessCommand_depth_witness :
    (0 < 64 ∧ (0 : Int) ≤ 1 ∧ (1 : Int) < 2 ^ (64 - 1) ∧ (1 : Int) + 1 < 2 ^ (64 - 1)) ∧
      0 ≤ (tryProcessCommandWrap 64 '[' "" ⟨1, true⟩).2.2.NumOpenLoops ∧
      (tryProcessCommandWrap 64 '[' "" ⟨1, true⟩).2.2.NumOpenLoops = 2 ∧
      (tryProcessCommandWrap 64 ']' "" ⟨0, true⟩).2.2.NumOpenLoops = -1 :=
  ⟨by decide,
    (tryProcessCommand_depth 64 (by decide) '[' "" ⟨1, true⟩ (by decide) (by decide)).2.2
      (by decide) (fun _ => by decide),
    by decide,
    ((tryProcessCommand_depth 64 (by decide) ']' "" ⟨0, true⟩ (by decide) (by decide)).2.1
      (by decide)).2⟩

/-- C16: when the loop of `processFile` has read a prefix `p` of the input
`p ++ q` without error, it goes on with `q` from a state whose `NumOpenLoops`
is the number of `[` less the number of `]` in `p`, which is not negative, and
whose `WritingComment` is true exactly when `p` has a non-ignored rune and the
last one is not an operator. -/
theorem processLoop_scan_state (p q : List Char)
    (h : (processLoop p "" initState).1 = none) :
    processLoop (p ++ q) "" initState =
        processLoop q (processLoop p "" initState).2.1 (processLoop p "" initState).2.2 ∧
      (processLoop p "" initState).2.2.NumOpenLoops =
        (p.count '[' : Int) - (p.count ']' : Int) ∧
      0 ≤ (processLoop p "" initState).2.2.NumOpenLoops ∧
      ((processLoop p "" initState).2.2.WritingComment = true ↔
        ∃ r, (nonIgnoredRunes p initState).getLast? = some r ∧ isOperator r = false) := by
  have hd := processLoop_init_depth p h
  have hp := (processLoop_init_ok_iff p).mp h p (List.prefix_refl _)
  refine ⟨?_, hd, by omega, ?_⟩
  · rw [processLoop_append, h]
  · rw [processLoop_writing p "" initState h]
    cases (nonIgnoredRunes p initState).getLast? with
    | none => simp [initState]
    | some r => simp

/-- C16 at the prefixes `[a ` (inside a comment, the space is not ignored) and
`[a ]` of the input `[a ] b`. -/
theorem processLoop_scan_state_witness :
    (processLoop "[a ".data "" initState).2.2 = ⟨1, true⟩ ∧
      (processLoop "[a ]".data "" initState).2.2 = ⟨0, false⟩ ∧
      ((processLoop "[a ".data "" initState).2.2.WritingComment = true ↔
        ∃ r, (nonIgnoredRunes "[a ".data initState).getLast? = some r ∧ isOperator r = false) :=
  ⟨by decide, by decide, (processLoop_scan_state "[a ".data "] b".data (by decide)).2.2.2⟩

/-- C17: on a rune that is none of the eight operators, `tryProcessCommand`
returns `(false, nil)` and leaves the buffer and the state unchanged. -/
theorem tryProcessCommand_non_operator (r : Char) (sb : String) (st : compilerState)
    (h : r ∉ ['>', '<', '+', '-', '[', ']', ',', '.']) :
    tryProcessCommand r sb st = ((false, none), sb, st) := by
  apply tryProcessCommand_of_not_operator
  simpa [isOperator, operators] using h

/-- C17 at the rune `a`, inside a comment at depth 2. -/
theorem tryProcessCommand_non_operator_witness :
    'a' ∉ ['>', '<', '+', '-', '[', ']', ',', '.'] ∧
      tryProcessCommand 'a' "\t\t\t// x" ⟨2, true⟩ = ((false, none), "\t\t\t// x", ⟨2, true⟩) :=
  ⟨by decide, tryProcessCommand_non_operator 'a' "\t\t\t// x" ⟨2, true⟩ (by decide)⟩

/-- C18: when `a` and `b` both compile and `b` is empty or starts with an
operator, `a ++ b` compiles and its body is the body of `a` followed by the
body of `b`. -/
theorem processFile_append (a b : String) (ha : (processFile a).2 = none)
    (hb : (processFile b).2 = none) (hfirst : ∀ r ∈ b.data.head?, isOperator r = true) :
    processFile (a ++ b) = ((processFile a).1 ++ (processFile b).1, none) := by
  obtain ⟨hae, had⟩ := (processFile_ok_iff_loop a).mp ha
  obtain ⟨hbe, hbd⟩ := (processFile_ok_iff_loop b).mp hb
  have habody := (processFile_ok a ha).2
  have hbbody := (processFile_ok b hb).2
  have hst : (processLoop a.data "" initState).2.2 =
      ⟨0, (processLoop a.data "" initState).2.2.WritingComment⟩ := by
    rw [← had]
  have hloop : processLoop (a ++ b).data "" initState =
      processLoop b.data (processLoop a.data "" initState).2.1
        ⟨0, (processLoop a.data "" initState).2.2.WritingComment⟩ := by
    rw [String.data_append, processLoop_append, hae, ← hst]
  obtain ⟨h1, h2⟩ := processLoop_after_comment b.data (processLoop a.data "" initState).2.1
    (processLoop a.data "" initState).2.2.WritingComment hfirst
  obtain ⟨h3, h4⟩ := h2 hbe
  rw [processFile_of_loop (a ++ b) (by rw [hloop, h1, hbe]) (by rw [hloop, h3, hbd]), hloop,
    h4, habody, hbbody]
  rfl

/-- C18 at `a = "[-]x y"`, which ends inside a comment, and `b = "+[.]z"`. -/
theorem processFile_append_witness :
    processFile "[-]x y+[.]z" =
      ("\tfor mem[index] != 0 \x7b\n\t\tmem[index]--\n\t\x7d\n\t// x y\n" ++
        "\tmem[index]++\n\tfor mem[index] != 0 \x7b\n\t\tfmt.Printf(\"%c\", mem[index])\n" ++
        "\t\x7d\n\t// z\n", none) :=
  processFile_append "[-]x y" "+[.]z" (by decide) (by decide) (by decide)

/-- C13: for an input that compiles, the number of lines of the body that are,
after their leading tabs, exactly `for mem[index] != 0 {` is the number of `[`
in the input, those in the middle of commentary included. -/
theorem processFile_loop_open_count (input : String) (h : (processFile input).2 = none) :
    (splitLines (processFile input).1.data).countP isLoopOpenLine =
      input.data.count '[' := by
  obtain ⟨he, hbody⟩ := processFile_ok input h
  obtain ⟨c, rest, hdata, _, hlines, _⟩ :=
    processLoop_lines input.data "" initState (le_refl _) he
  have hrest : (processFile input).1.data = rest := by
    rw [hbody, hdata]
    simp [initState]
  have hcount : (splitLines rest).countP isLoopOpenLine =
      ((splitLines rest).filter (fun l => !isCommentLine l)).countP isLoopOpenLine := by
    rw [List.countP_filter]
    apply List.countP_congr
    intro l _
    constructor
    · intro hl
      simp [hl, not_comment_of_loop_open hl]
    · intro hl
      simp only [Bool.and_eq_true] at hl
      exact hl.1
  rw [hrest, hcount, hlines, countP_loop_open_opLines _ _ (fun r hr => (List.mem_filter.mp hr).2)]
  exact List.count_filter (by decide)

/-- C13 at `ab[cd]`, where the `[` ends a comment line and opens a loop. -/
theorem processFile_loop_open_count_witness :
    processFile "ab[cd]" = ("\t// ab\n\tfor mem[index] != 0 \x7b\n\t\t// cd\n\t\x7d\n", none) ∧
      (splitLines (processFile "ab[cd]").1.data).countP isLoopOpenLine = 1 :=
  ⟨by decide, processFile_loop_open_count "ab[cd]" (by decide)⟩

/-- C20: for an input that compiles, the body is empty exactly when every
character of the input is whitespace, and a non-empty body begins with a tab
and ends with a line break. -/
theorem processFile_body_shape (input : String) (h : (processFile input).2 = none) :
    ((processFile input).1 = "" ↔ ∀ r ∈ input.data, unicode.IsSpace r = true) ∧
      ((processFile input).1 ≠ "" →
        (processFile input).1.data.head? = some '\t' ∧
          (processFile input).1.data.getLast? = some '\n') := by
  obtain ⟨he, hbody⟩ := processFile_ok input h
  rw [processLoop_dropWhile_space input.data "" initState rfl] at he hbody
  rw [hbody]
  cases hd : input.data.dropWhile unicode.IsSpace with
  | nil =>
    have hall := List.dropWhile_eq_nil_iff.mp hd
    refine ⟨⟨fun _ => hall, fun _ => rfl⟩, fun hne => absurd rfl hne⟩
  | cons r rest =>
    rw [hd] at he
    have hsp : unicode.IsSpace r = false := by
      have := List.head_dropWhile_not unicode.IsSpace input.data (by rw [hd]; simp)
      simpa [hd] using this
    have hmem : r ∈ input.data := by
      have : r ∈ input.data.dropWhile unicode.IsSpace := by rw [hd]; exact List.mem_cons_self _ _
      exact (List.dropWhile_suffix _).subset this
    have hig : ¬ isIgnoredRune r initState = true := by
      simp [isIgnoredRune, initState, hsp]
    rw [processLoop_cons, if_neg hig] at he ⊢
    by_cases h2 : r = ']' ∧ initState.NumOpenLoops ≤ 0
    · rw [if_pos h2] at he
      simp at he
    · rw [if_neg h2] at he ⊢
      have hr : r ≠ ']' := fun e => h2 ⟨e, le_refl _⟩
      obtain ⟨t, ht⟩ := stepText_init_head r hr
      have hlast := processLoop_ends_newline rest _ _ he (by
        rw [stepState_writing]
        cases hop : isOperator r
        · left
          rfl
        · right
          rw [String.data_append, List.getLast?_append, stepText_operator_last _ hop]
          rfl)
      rw [processLoop_buffer] at hlast ⊢
      rw [finishBuffer_append] at hlast ⊢
      have hhead : (("" : String) ++ stepText r initState ++
          finishBuffer ((processLoop rest "" (stepState r initState)).1,
            (processLoop rest "" (stepState r initState)).2.1,
            (processLoop rest "" (stepState r initState)).2.2)).data.head? = some '\t' := by
        simp [ht]
      have hne : (("" : String) ++ stepText r initState ++
          finishBuffer ((processLoop rest "" (stepState r initState)).1,
            (processLoop rest "" (stepState r initState)).2.1,
            (processLoop rest "" (stepState r initState)).2.2)) ≠ "" := by
        intro e
        rw [e] at hhead
        exact absurd hhead (by decide)
      refine ⟨⟨fun e => absurd e hne, fun hall => ?_⟩, fun _ => ⟨hhead, hlast⟩⟩
      rw [hall r hmem] at hsp
      cases hsp

/-- C20 at a whitespace-only input, at an input ending in a comment and at an
input ending in an operator. -/
theorem processFile_body_shape_witness :
    processFile " \n\t " = ("", none) ∧
      ((processFile " +a").1 ≠ "" ∧ (processFile " +a").1.data.head? = some '\t' ∧
        (processFile " +a").1.data.getLast? = some '\n') ∧
      (processFile "a+").1.data.getLast? = some '\n' :=
  ⟨by decide, ⟨by decide, (processFile_body_shape " +a" (by decide)).2 (by decide)⟩,
    ((processFile_body_shape "a+" (by decide)).2 (by decide)).2⟩

/-- C14: for every `k` and every non-empty commentary `c` without operator and
without whitespace, the input made of `k` times `[`, then `c`, then `k` times
`]` compiles, and its body is the `k` loop-open lines indented by 1 to `k`
tabs, the single comment line made of `k + 1` tabs, `"// "`, `c` and a line
break, and the `k` loop-close lines indented by `k` down to 1 tabs. -/
theorem processFile_comment_in_loops (k : Nat) (c : String) (hne : c ≠ "")
    (hc : ∀ r ∈ c.data, isOperator r = false ∧ unicode.IsSpace r = false) :
    processFile ⟨List.replicate k '[' ++ (c.data ++ List.replicate k ']')⟩ =
      (⟨loopOpenLines k ++
          ((List.replicate (k + 1) '\t' ++ ("// ".data ++ (c.data ++ ['\n']))) ++
            loopCloseLines k)⟩, none) := by
  have hne2 : c.data ≠ [] := by
    intro e
    apply hne
    apply String.ext
    rw [e]
  have hloop : processLoop (List.replicate k '[' ++ (c.data ++ List.replicate k ']')) ""
      initState =
      processLoop (List.replicate k ']')
        ("" ++ ⟨loopOpenLines k⟩ ++ tabs ((k : Int) + 1) ++ "// " ++ ⟨c.data⟩) ⟨k, true⟩ := by
    rw [processLoop_append, processLoop_opens]
    simp only
    rw [processLoop_append, processLoop_comment_text c.data _ _ hne2 hc]
  obtain ⟨h1, h2, h3⟩ := processLoop_closes_comment k
    ("" ++ ⟨loopOpenLines k⟩ ++ tabs ((k : Int) + 1) ++ "// " ++ ⟨c.data⟩)
  rw [processFile_of_loop _ (by rw [hloop]; exact h1) (by rw [hloop]; exact h2)]
  show (finishBuffer (processLoop (List.replicate k '[' ++ (c.data ++ List.replicate k ']')) ""
    initState), none) = _
  rw [hloop, h3, tabs_succ]
  congr 1
  apply String.ext
  simp

/-- C14 at `k = 2`, `c = "ab"` and at `k = 0`, `c = "x"`. -/
theorem processFile_comment_in_loops_witness :
    processFile "[[ab]]" =
        ("\tfor mem[index] != 0 \x7b\n\t\tfor mem[index] != 0 \x7b\n\t\t\t// ab\n\t\t\x7d\n\t\x7d\n",
          none) ∧
      processFile "x" = ("\t// x\n", none) :=
  ⟨processFile_comment_in_loops 2 "ab" (by decide) (by decide),
    processFile_comment_in_loops 0 "x" (by decide) (by decide)⟩

/-- C12: for an input that compiles, the number of line breaks of the body is
the number of operator characters of the input plus the number of its comment
runs, and every line of the body is tabs followed by the statement of one
operator, or tabs followed by `"// "` and a commentary text whose only
whitespace is the plain space; so no comment holds a line break. -/
theorem processFile_line_breaks (input : String) (h : (processFile input).2 = none) :
    (processFile input).1.data.count '\n' =
        (input.data.filter isOperator).length + commentRuns input.data ∧
      ∀ l ∈ splitLines (processFile input).1.data, isStatementLine l ∨ isCommentaryLine l := by
  obtain ⟨he, hbody⟩ := processFile_ok input h
  obtain ⟨c, rest, hdata, _, _, hcount, hshape⟩ :=
    processLoop_shape input.data "" initState he
  have hrest : (processFile input).1.data = rest := by
    rw [hbody, hdata]
    simp [initState]
  rw [hrest, hcount]
  exact ⟨by rw [← runsFrom_false_eq]; rfl, hshape⟩

/-- C12 at an input with two comment runs, the first holding a tab and a
newline that are not kept, and four operators. -/
theorem processFile_line_breaks_witness :
    processFile "a\t b\nc+[ ]d ." =
        ("\t// a bc\n\tmem[index]++\n\tfor mem[index] != 0 \x7b\n\t\x7d\n\t// d \n" ++
          "\tfmt.Printf(\"%c\", mem[index])\n", none) ∧
      commentRuns "a\t b\nc+[ ]d .".data = 2 ∧
      (processFile "a\t b\nc+[ ]d .").1.data.count '\n' = 4 + 2 :=
  ⟨by decide, by decide, (processFile_line_breaks "a\t b\nc+[ ]d ." (by decide)).1⟩

/-- C19: for an input `p` that compiles, `"[" ++ p ++ "]"` compiles and its
body is the loop-open line at one tab, then the body of `p` with one extra tab
inserted at the start of every line, then the loop-close line at one tab. -/
theorem processFile_wrap_loop (p : String) (h : (processFile p).2 = none) :
    processFile ("[" ++ p ++ "]") =
      ("\tfor mem[index] != 0 \x7b\n" ++ indentLines (processFile p).1 ++ "\t\x7d\n", none) := by
  obtain ⟨he, hd⟩ := (processFile_ok_iff_loop p).mp h
  have hbody := (processFile_ok p h).2
  obtain ⟨i1, i2, i3⟩ := processLoop_indent p.data initState (le_refl _) he
  have hdata : ("[" ++ p ++ "]").data = '[' :: (p.data ++ [']']) := by
    simp only [String.data_append, List.append_assoc]
    rfl
  have hopen : processLoop ('[' :: (p.data ++ [']'])) "" initState =
      processLoop (p.data ++ [']']) "\tfor mem[index] != 0 \x7b\n"
        ⟨initState.NumOpenLoops + 1, initState.WritingComment⟩ := by
    rw [processLoop_cons, if_neg (by decide), if_neg (by decide)]
    rfl
  have hclose : ∀ (X : String) (wc : Bool), processLoop [']'] X ⟨0 + 1, wc⟩ =
      (none, X ++ ((if wc then "\n" else "") ++ "\t\x7d\n"), initState) := by
    intro X wc
    rw [processLoop_cons,
      if_neg (by simp [isOperator_not_ignored _ (show isOperator ']' = true by decide)]),
      if_neg (fun hh => (show ¬ ((0 : Int) + 1 ≤ 0) by decide) hh.2), processLoop]
    cases wc <;> rfl
  have hloop : processLoop ("[" ++ p ++ "]").data "" initState =
      (none, ("\tfor mem[index] != 0 \x7b\n" ++
        (processLoop p.data "" ⟨initState.NumOpenLoops + 1, initState.WritingComment⟩).2.1) ++
          ((if (processLoop p.data "" initState).2.2.WritingComment then "\n" else "") ++
            "\t\x7d\n"), initState) := by
    rw [hdata, hopen, processLoop_append, processLoop_buffer p.data, i1]
    simp only
    rw [i2, hd, hclose]
  have hfin : ∀ X : String, finishBuffer (none, X, initState) = X := fun _ => rfl
  have key : indentFrom true ((processLoop p.data "" initState).2.1.data ++
      (if (processLoop p.data "" initState).2.2.WritingComment then ['\n'] else [])) =
      (processLoop p.data "" ⟨initState.NumOpenLoops + 1, initState.WritingComment⟩).2.1.data ++
        indentFrom (!(processLoop p.data "" initState).2.2.WritingComment)
          (if (processLoop p.data "" initState).2.2.WritingComment then ['\n'] else []) :=
    i3 _
  rw [processFile_of_loop _ (by rw [hloop]) (by rw [hloop]; rfl), hloop, hbody, hfin]
  congr 1
  apply String.ext
  simp only [finishBuffer, indentLines]
  generalize (processLoop p.data "" initState).2.2.WritingComment = w at key ⊢
  generalize (processLoop p.data "" initState).2.1 = o at key ⊢
  generalize (processLoop p.data ""
    ⟨initState.NumOpenLoops + 1, initState.WritingComment⟩).2.1 = o1 at key ⊢
  cases w
  · simp only [Bool.false_eq_true, if_false, List.append_nil, Bool.not_false, indentFrom]
      at key ⊢
    simp only [String.data_append, key, List.append_assoc]
    rfl
  · simp only [if_true, Bool.not_true, indentFrom] at key ⊢
    simp only [String.data_append, String.data_push, key, List.append_assoc]
    rfl

/-- C19 at `p = "+a"`, whose body ends with a comment line. -/
theorem processFile_wrap_loop_witness :
    processFile "+a" = ("\tmem[index]++\n\t// a\n", none) ∧
      processFile "[+a]" =
        ("\tfor mem[index] != 0 \x7b\n" ++ "\t\tmem[index]++\n\t\t// a\n" ++ "\t\x7d\n", none) :=
  ⟨by decide, processFile_wrap_loop "+a" (by decide)⟩
